import Mathlib

/-!
# LRU cache (`lru/cache.go`)

A shallow embedding of the generic LRU cache of the package `lru` and a
verification of its contract.

The Go type `Cache[K, V]` holds a `*list.List` (package `container/list`),
a `map[K]*list.Element` and an `int` capacity.  The embedding keeps the pointer
structure explicit:

* every `*list.Element` is an address (a `Nat`) into `Cache.mem`, the store of
  allocated list elements; an element is allocated by `PushFront` and its
  `Value` field is overwritten in place by `Set`;
* `Cache.ll` is the list `c.ll`, the addresses of its elements from front to
  back;
* `Cache.items` is the map `c.items`, a list of key/address bindings;
* a call that would panic in Go (failed type assertion, dereference of a
  pointer that is not an allocated element) returns `none`.

The methods `Peek` and `Delete`, which the public tests call, have no definition
in `cache.go`; `Cache.Peek` and `Cache.Delete` below are modelled from the
specification of the package.

`K comparable` is rendered as `[DecidableEq K]`, the zero value of `V` as
`default` of `[Inhabited V]`.  The mutex only serialises calls; the embedding
describes the sequential behaviour of one call at a time.
-/

namespace lru

/-! ## Data model -/

/-- The Go struct `entry[K, V]`: a key together with its value. -/
structure entry (K V : Type) where
  key : K
  value : V
deriving DecidableEq, Repr

/-- A `list.Element` as the cache uses it.  `Value` has the Go type `any`:
`some kv` is a value of dynamic type `entry[K, V]`, `none` is any other value
(such as the nil interface of a zero element), on which the type assertion
`Value.(entry[K, V])` panics. -/
structure Element (K V : Type) where
  Value : Option (entry K V)
deriving DecidableEq, Repr

/-- The Go struct `Cache[K, V]` (without the mutex), together with the store of
allocated list elements its pointers refer to. -/
structure Cache (K V : Type) where
  /-- Allocated list elements; the address of an element is its index. -/
  mem : List (Element K V)
  /-- The field `ll`: the addresses of the elements of the list, front first. -/
  ll : List Nat
  /-- The field `items`: the bindings of the map from keys to element pointers. -/
  items : List (K × Nat)
  /-- The field `capacity`. -/
  capacity : Int
deriving DecidableEq, Repr

/-! ## Go maps -/

/-- Map lookup `m[key]` in its two-result form: `some el` when the key is bound. -/
def mapGet {K : Type} [DecidableEq K] : List (K × Nat) → K → Option Nat
  | [], _ => none
  | (k, el) :: m, key => if k = key then some el else mapGet m key

/-- The builtin `delete(m, key)`. -/
def mapDelete {K : Type} [DecidableEq K] : List (K × Nat) → K → List (K × Nat)
  | [], _ => []
  | (k, el) :: m, key => if k = key then mapDelete m key else (k, el) :: mapDelete m key

/-- The assignment `m[key] = el`: it replaces the binding of `key`, if any. -/
def mapSet {K : Type} [DecidableEq K] (m : List (K × Nat)) (key : K) (el : Nat) :
    List (K × Nat) :=
  (key, el) :: mapDelete m key

/-! ## `container/list` -/

/-- `l.MoveToFront(e)`: nothing happens when `e` is not an element of `l` or is
already at the front; otherwise `e` is unlinked and relinked at the front. -/
def MoveToFront (ll : List Nat) (e : Nat) : List Nat :=
  if e ∉ ll ∨ ll.head? = some e then ll else e :: ll.erase e

/-- `l.PushFront(v)`: allocates a new element holding `v` and links it at the
front; the results are the store, the list and the pointer to the new element. -/
def PushFront {K V : Type} (mem : List (Element K V)) (ll : List Nat) (v : entry K V) :
    List (Element K V) × List Nat × Nat :=
  (mem ++ [⟨some v⟩], mem.length :: ll, mem.length)

/-- `l.Back()`: the last element, or nil (`none`) when the list is empty. -/
def Back (ll : List Nat) : Option Nat :=
  ll.getLast?

/-- `l.Remove(e)`: unlinks `e` when it is an element of `l`. -/
def Remove (ll : List Nat) (e : Nat) : List Nat :=
  ll.erase e

/-- The expression `el.Value.(entry[K, V])` for a pointer `el`: it panics
(`none`) when `el` is not an allocated element or its `Value` is not an
`entry[K, V]`. -/
def assertEntry {K V : Type} (mem : List (Element K V)) (el : Nat) : Option (entry K V) :=
  match mem[el]? with
  | some e => e.Value
  | none => none

/-! ## The cache operations -/

/-- `NewCache(capacity)`: panics (`none`) when `capacity <= 0`, otherwise returns
a cache with a fresh empty list and a fresh empty map. -/
def NewCache (K V : Type) (capacity : Int) : Option (Cache K V) :=
  if capacity ≤ 0 then none
  else some { mem := [], ll := [], items := [], capacity := capacity }

variable {K V : Type}

/-- `c.Set(key, value)`. -/
def Cache.Set [DecidableEq K] (c : Cache K V) (key : K) (value : V) : Option (Cache K V) :=
  match mapGet c.items key with
  | some el =>
    -- el.Value = entry{key, value}; c.ll.MoveToFront(el); return
    -- (the write goes through the pointer, which must be an allocated element)
    if el < c.mem.length then
      some { c with
        mem := c.mem.set el ⟨some ⟨key, value⟩⟩
        ll := MoveToFront c.ll el }
    else none
  | none =>
    -- el := c.ll.PushFront(entry{key, value}); c.items[key] = el
    let (mem, ll, el) := PushFront c.mem c.ll ⟨key, value⟩
    let items := mapSet c.items key el
    -- if c.ll.Len() > c.capacity { last := c.ll.Back(); if last != nil { ... } }
    if (ll.length : Int) > c.capacity then
      match Back ll with
      | some last =>
        -- kv := last.Value.(entry[K, V]); delete(c.items, kv.key); c.ll.Remove(last)
        match assertEntry mem last with
        | some kv =>
          some { mem := mem, ll := Remove ll last, items := mapDelete items kv.key,
                 capacity := c.capacity }
        | none => none
      | none => some { mem := mem, ll := ll, items := items, capacity := c.capacity }
    else some { mem := mem, ll := ll, items := items, capacity := c.capacity }

/-- `c.Get(key)`: the returned pair `(value, found)` and the cache afterwards. -/
def Cache.Get [DecidableEq K] [Inhabited V] (c : Cache K V) (key : K) :
    Option ((V × Bool) × Cache K V) :=
  match mapGet c.items key with
  | some el =>
    -- c.ll.MoveToFront(el); kv := el.Value.(entry[K, V]); return kv.value, true
    match assertEntry c.mem el with
    | some kv => some ((kv.value, true), { c with ll := MoveToFront c.ll el })
    | none => none
  | none => some ((default, false), c)

/-- `c.Clear()`: a fresh list and a fresh map; the capacity is kept. -/
def Cache.Clear (c : Cache K V) : Cache K V :=
  { c with ll := [], items := [] }

/-- `c.Len()`: the length of the list. -/
def Cache.Len (c : Cache K V) : Int :=
  (c.ll.length : Int)

/-- `c.Cap()`. -/
def Cache.Cap (c : Cache K V) : Int :=
  c.capacity


/-! ## Observations and call sequences -/

/-- The recency order: the entries held by the elements of the list, front
(most recently used) first. -/
def Cache.order (c : Cache K V) : List (entry K V) :=
  c.ll.filterMap (assertEntry c.mem)

/-- The keys bound in the map `items`. -/
def Cache.keys (c : Cache K V) : List K :=
  c.items.map Prod.fst

/-- The test `_, ok := c.items[key]` that `Set` and `Get` branch on: whether
`key` is present. -/
def Cache.has [DecidableEq K] (c : Cache K V) (key : K) : Bool :=
  (mapGet c.items key).isSome

/-- One call on a cache. -/
inductive Op (K V : Type) where
  | Set (key : K) (value : V)
  | Get (key : K)
  | Clear
  | Len
  | Cap
deriving DecidableEq, Repr

/-- The cache after one call (`none` when the call panics). -/
def Cache.step [DecidableEq K] [Inhabited V] (c : Cache K V) : Op K V → Option (Cache K V)
  | .Set key value => c.Set key value
  | .Get key => (c.Get key).map Prod.snd
  | .Clear => some c.Clear
  | .Len => some c
  | .Cap => some c

/-- The cache after a sequence of calls, made from left to right. -/
def Cache.run [DecidableEq K] [Inhabited V] (c : Cache K V) : List (Op K V) → Option (Cache K V)
  | [] => some c
  | op :: ops => (c.step op).bind (fun c1 => c1.run ops)

/-- The cache obtained from `NewCache(capacity)` by a sequence of calls. -/
def runNew (K V : Type) [DecidableEq K] [Inhabited V] (capacity : Int) (ops : List (Op K V)) :
    Option (Cache K V) :=
  (NewCache K V capacity).bind (fun c => c.run ops)

/-- A cache that some sequence of calls produces from a successful `NewCache`. -/
def Reachable [DecidableEq K] [Inhabited V] (c : Cache K V) : Prop :=
  ∃ (capacity : Int) (ops : List (Op K V)), runNew K V capacity ops = some c

/-! ## Specification-side definitions

The representation invariant, the recency list as a model of the operations,
and the notions the statements of the contract are phrased with. -/

/-- The list and the map of a cache describe the same entries. -/
structure Linked [DecidableEq K] (c : Cache K V) : Prop where
  /-- No element is linked into the list twice. -/
  nodup : c.ll.Nodup
  /-- Every element of the list holds an entry, and the map sends its key to it. -/
  elems : ∀ el ∈ c.ll, ∃ kv, assertEntry c.mem el = some kv ∧ mapGet c.items kv.key = some el
  /-- Every binding of the map points into the list, at an entry with its key. -/
  binds : ∀ k el, mapGet c.items k = some el →
    el ∈ c.ll ∧ ∃ kv, assertEntry c.mem el = some kv ∧ kv.key = k
  /-- The map binds no key twice. -/
  keysNodup : (c.items.map Prod.fst).Nodup

/-- The representation invariant of a cache: the list and the map describe the
same entries, and the list is within the positive capacity. -/
structure WF [DecidableEq K] (c : Cache K V) extends Linked c : Prop where
  /-- The capacity is positive. -/
  capPos : 0 < c.capacity
  /-- The list is no longer than the capacity. -/
  lenLe : (c.ll.length : Int) ≤ c.capacity

/-- The recency order after `Get(k)`, computed on the recency order before. -/
def modelGet [DecidableEq K] (l : List (entry K V)) (k : K) : List (entry K V) :=
  match l.find? (fun x => decide (x.key = k)) with
  | some e => e :: l.filter (fun x => !decide (x.key = k))
  | none => l

/-- The pair that `Get(k)` returns, computed on the recency order. -/
def modelLookup [DecidableEq K] [Inhabited V] (l : List (entry K V)) (k : K) : V × Bool :=
  match l.find? (fun x => decide (x.key = k)) with
  | some e => (e.value, true)
  | none => (default, false)

/-- The recency order after `Set(k, v)` with capacity `cap`, computed on the
recency order before. -/
def modelSet [DecidableEq K] (cap : Int) (l : List (entry K V)) (k : K) (v : V) :
    List (entry K V) :=
  if k ∈ l.map entry.key then ⟨k, v⟩ :: l.filter (fun x => !decide (x.key = k))
  else if (l.length : Int) + 1 > cap then ⟨k, v⟩ :: l.dropLast
  else ⟨k, v⟩ :: l

/-- The state that `Set` builds for a new key before it looks at the capacity:
the element pushed at the front and bound in the map. -/
def pushed [DecidableEq K] (c : Cache K V) (k : K) (v : V) : Cache K V :=
  { mem := c.mem ++ [⟨some ⟨k, v⟩⟩], ll := c.mem.length :: c.ll,
    items := mapSet c.items k c.mem.length, capacity := c.capacity }

/-- The recency order after one call, computed on the recency order before. -/
def modelStep [DecidableEq K] (cap : Int) (l : List (entry K V)) : Op K V → List (entry K V)
  | .Set k v => modelSet cap l k v
  | .Get k => modelGet l k
  | .Clear => []
  | .Len => l
  | .Cap => l

/-- The recency order after a sequence of calls, computed on the recency order
before. -/
def modelRun [DecidableEq K] (cap : Int) (l : List (entry K V)) (ops : List (Op K V)) :
    List (entry K V) :=
  ops.foldl (modelStep cap) l

/-- The value passed to the most recent `Set(k, _)` of a sequence of calls, if
there is one. -/
def lastSet [DecidableEq K] (ops : List (Op K V)) (k : K) : Option V :=
  ops.foldl (fun acc op =>
    match op with
    | .Set k2 v => if k2 = k then some v else acc
    | _ => acc) none

/-- A full cache of capacity 2 holding the keys 2 (front) and 1 (back), as left
by `NewCache(2)`, `Set(1, 10)`, `Set(2, 20)`. -/
def sampleFull : Cache Nat Nat :=
  { mem := [⟨some ⟨1, 10⟩⟩, ⟨some ⟨2, 20⟩⟩], ll := [1, 0], items := [(2, 1), (1, 0)],
    capacity := 2 }

/-- A cache of capacity 3 holding the keys 2 (front) and 1 (back), as left by
`NewCache(3)`, `Set(1, 10)`, `Set(2, 20)`. -/
def sampleRoomy : Cache Nat Nat :=
  { mem := [⟨some ⟨1, 10⟩⟩, ⟨some ⟨2, 20⟩⟩], ll := [1, 0], items := [(2, 1), (1, 0)],
    capacity := 3 }

/-- Whether a call is an access, by `Set` or by `Get`, to the key `k`. -/
def Op.touches [DecidableEq K] (k : K) : Op K V → Bool
  | .Set k2 _ => decide (k2 = k)
  | .Get k2 => decide (k2 = k)
  | _ => false

/-- The time of the most recent access to `k` in a sequence of calls given
latest call first: the number of calls up to and including that access, or 0
when `k` is never accessed. -/
def lastAccessRev [DecidableEq K] (k : K) : List (Op K V) → Nat
  | [] => 0
  | op :: older => if op.touches k then older.length + 1 else lastAccessRev k older

/-- The time of the most recent access (`Set` or `Get`) to `k` in a sequence of
calls: the position of that call counted from 1, or 0 when `k` is never
accessed.  A smaller number is an earlier access. -/
def lastAccess [DecidableEq K] (ops : List (Op K V)) (k : K) : Nat :=
  lastAccessRev k ops.reverse

/-- The calls `Set(k1, v1)`, ..., `Set(kn, vn)` for a list of key/value pairs. -/
def setAll (kvs : List (K × V)) : List (Op K V) :=
  kvs.map (fun p => Op.Set p.1 p.2)

/-- A call that is a `Get`, or a `Set` of one of the given keys. -/
def Op.onKeys [DecidableEq K] (keys : List K) : Op K V → Bool
  | .Set k _ => decide (k ∈ keys)
  | .Get _ => true
  | _ => false

/-- The pair returned by `Get(k)` after a sequence of calls on `NewCache(capacity)`. -/
def getAfter (capacity : Int) (ops : List (Op Nat Nat)) (k : Nat) : Option (Nat × Bool) :=
  (runNew Nat Nat capacity ops).bind (fun c => (c.Get k).map Prod.fst)

/-- A full cache of capacity 1 holding the key 1, as left by `NewCache(1)`,
`Set(1, 10)`. -/
def sampleOne : Cache Nat Nat :=
  { mem := [⟨some ⟨1, 10⟩⟩], ll := [0], items := [(1, 0)], capacity := 1 }

/-- What a call returns: nothing (`Set`, `Clear`), the pair of `Get`, or the
integer of `Len` and `Cap`. -/
inductive Result (V : Type) where
  | unit
  | got (value : V) (found : Bool)
  | int (n : Int)
deriving DecidableEq, Repr

/-- One call on a cache: what it returns and the cache afterwards (`none` when
the call panics). -/
def Cache.call [DecidableEq K] [Inhabited V] (c : Cache K V) :
    Op K V → Option (Result V × Cache K V)
  | .Set key value => (c.Set key value).map (fun c1 => (Result.unit, c1))
  | .Get key => (c.Get key).map (fun r => (Result.got r.1.1 r.1.2, r.2))
  | .Clear => some (Result.unit, c.Clear)
  | .Len => some (Result.int c.Len, c)
  | .Cap => some (Result.int c.Cap, c)

/-- What the calls of a sequence return, made from left to right on a cache. -/
def Cache.results [DecidableEq K] [Inhabited V] (c : Cache K V) :
    List (Op K V) → Option (List (Result V))
  | [] => some []
  | op :: ops =>
    (c.call op).bind (fun r => (r.2.results ops).map (fun rs => r.1 :: rs))

/-- What one call returns, computed on the capacity and the recency order. -/
def modelResult [DecidableEq K] [Inhabited V] (cap : Int) (l : List (entry K V)) :
    Op K V → Result V
  | .Set _ _ => Result.unit
  | .Get k => Result.got (modelLookup l k).1 (modelLookup l k).2
  | .Clear => Result.unit
  | .Len => Result.int (l.length : Int)
  | .Cap => Result.int cap

/-- What the calls of a sequence return, computed on the capacity and the
recency order. -/
def modelResults [DecidableEq K] [Inhabited V] (cap : Int) :
    List (entry K V) → List (Op K V) → List (Result V)
  | _, [] => []
  | l, op :: ops => modelResult cap l op :: modelResults cap (modelStep cap l op) ops

/-- Modelled from the spec: the method `Peek`, which the public tests call and
whose definition is not in `cache.go`.  The spec says: "Peek(key) → (value,
found). Identical lookup semantics to Get, but never alters recency order — the
entry's position is left untouched."  The lookup is the one of `Get`, a map
access followed by the type assertion on the element; the cache is returned as
it was. -/
def Cache.Peek [DecidableEq K] [Inhabited V] (c : Cache K V) (key : K) :
    Option ((V × Bool) × Cache K V) :=
  match mapGet c.items key with
  | some el =>
    match assertEntry c.mem el with
    | some kv => some ((kv.value, true), c)
    | none => none
  | none => some ((default, false), c)

/-- Modelled from the spec: the method `Delete`, which the public tests call
and whose definition is not in `cache.go`.  The spec says: "Delete(key) → found
(boolean). Removes the entry for key from both indices if present, returning
whether it was present. No-op (returns false) if absent." -/
def Cache.Delete [DecidableEq K] (c : Cache K V) (key : K) : Bool × Cache K V :=
  match mapGet c.items key with
  | some el => (true, { c with ll := Remove c.ll el, items := mapDelete c.items key })
  | none => (false, c)

/-- One call of the whole interface: a call of `cache.go`, or one of the two
methods modelled from the spec. -/
inductive Call (K V : Type) where
  | base (op : Op K V)
  | Peek (key : K)
  | Delete (key : K)
deriving DecidableEq, Repr

/-- The cache after one call of the whole interface (`none` when it panics). -/
def Cache.stepAll [DecidableEq K] [Inhabited V] (c : Cache K V) : Call K V → Option (Cache K V)
  | .base op => c.step op
  | .Peek key => (c.Peek key).map Prod.snd
  | .Delete key => some (c.Delete key).2

/-- The cache after a sequence of calls of the whole interface. -/
def Cache.runAll [DecidableEq K] [Inhabited V] (c : Cache K V) :
    List (Call K V) → Option (Cache K V)
  | [] => some c
  | call :: calls => (c.stepAll call).bind (fun c1 => c1.runAll calls)

/-- The cache obtained from `NewCache(capacity)` by a sequence of calls of the
whole interface. -/
def runAllNew (K V : Type) [DecidableEq K] [Inhabited V] (capacity : Int)
    (calls : List (Call K V)) : Option (Cache K V) :=
  (NewCache K V capacity).bind (fun c => c.runAll calls)

/-- A cache that some sequence of `Set`, `Get`, `Peek`, `Delete`, `Clear`, `Len`
and `Cap` calls produces from a successful `NewCache`. -/
def ReachableAll [DecidableEq K] [Inhabited V] (c : Cache K V) : Prop :=
  ∃ (capacity : Int) (calls : List (Call K V)), runAllNew K V capacity calls = some c

/-- The recency order after one call of the whole interface, computed on the
recency order before. -/
def modelStepAll [DecidableEq K] (cap : Int) (l : List (entry K V)) :
    Call K V → List (entry K V)
  | .base op => modelStep cap l op
  | .Peek _ => l
  | .Delete k => l.filter (fun x => !decide (x.key = k))

/-- The recency order after a sequence of calls of the whole interface. -/
def modelRunAll [DecidableEq K] (cap : Int) (l : List (entry K V)) (calls : List (Call K V)) :
    List (entry K V) :=
  calls.foldl (modelStepAll cap) l

/-- The distinct keys of a list of keys given in call order, most recently
used first: `dedup` keeps each key once, at the place of its last occurrence. -/
def recentFirst [DecidableEq K] (keys : List K) : List K :=
  keys.dedup.reverse

/-- The keys passed to `Set` by a sequence of calls, in call order. -/
def setKeys (ops : List (Op K V)) : List K :=
  ops.filterMap (fun op =>
    match op with
    | .Set k _ => some k
    | _ => none)

/-- A call that is a `Set` or a `Get`. -/
def Op.isSetOrGet : Op K V → Bool
  | .Set _ _ => true
  | .Get _ => true
  | _ => false

/-! ## Lemmas: maps, element stores, lists, and the simulation of the
operations by the recency list -/

theorem mapGet_mapDelete [DecidableEq K] (m : List (K × Nat)) (k k' : K) :
    mapGet (mapDelete m k) k' = if k = k' then none else mapGet m k' := by
  induction m with
  | nil => simp [mapDelete, mapGet]
  | cons b m ih =>
    obtain ⟨a, el⟩ := b
    by_cases h : a = k
    · subst h
      simp only [mapDelete, if_true, ih, mapGet]
      by_cases h2 : a = k' <;> simp [h2]
    · simp only [mapDelete, if_neg h, mapGet, ih]
      by_cases h2 : k = k'
      · subst h2
        simp [h]
      · simp [h2]

theorem mapGet_mapSet [DecidableEq K] (m : List (K × Nat)) (k k' : K) (el : Nat) :
    mapGet (mapSet m k el) k' = if k = k' then some el else mapGet m k' := by
  unfold mapSet
  by_cases h : k = k'
  · simp [mapGet, h]
  · simp [mapGet, h, mapGet_mapDelete]

theorem mapGet_isSome_iff [DecidableEq K] (m : List (K × Nat)) (k : K) :
    (mapGet m k).isSome = true ↔ k ∈ m.map Prod.fst := by
  induction m with
  | nil => simp [mapGet]
  | cons b m ih =>
    obtain ⟨a, el⟩ := b
    by_cases h : a = k
    · simp [mapGet, h]
    · have h2 : ¬ k = a := fun e => h e.symm
      simp only [mapGet, if_neg h, ih]
      simp [h2]

theorem mapDelete_sublist [DecidableEq K] (m : List (K × Nat)) (k : K) :
    List.Sublist (mapDelete m k) m := by
  induction m with
  | nil => simp [mapDelete]
  | cons b m ih =>
    obtain ⟨a, el⟩ := b
    by_cases h : a = k
    · simp only [mapDelete, if_pos h]
      exact List.Sublist.cons _ ih
    · simp only [mapDelete, if_neg h]
      exact List.Sublist.cons₂ _ ih

theorem mapDelete_keys_nodup [DecidableEq K] (m : List (K × Nat)) (k : K)
    (h : (m.map Prod.fst).Nodup) : ((mapDelete m k).map Prod.fst).Nodup :=
  List.Nodup.sublist (List.Sublist.map _ (mapDelete_sublist m k)) h

theorem mapDelete_not_mem [DecidableEq K] (m : List (K × Nat)) (k : K) :
    k ∉ (mapDelete m k).map Prod.fst := by
  intro h
  have h1 := (mapGet_isSome_iff (mapDelete m k) k).mpr h
  rw [mapGet_mapDelete] at h1
  simp at h1

theorem mapSet_keys_nodup [DecidableEq K] (m : List (K × Nat)) (k : K) (el : Nat)
    (h : (m.map Prod.fst).Nodup) : ((mapSet m k el).map Prod.fst).Nodup := by
  unfold mapSet
  rw [List.map_cons, List.nodup_cons]
  exact ⟨mapDelete_not_mem m k, mapDelete_keys_nodup m k h⟩

theorem assertEntry_lt {mem : List (Element K V)} {el : Nat} {kv : entry K V}
    (h : assertEntry mem el = some kv) : el < mem.length := by
  unfold assertEntry at h
  by_contra hlt
  rw [List.getElem?_eq_none (by omega)] at h
  simp at h

theorem assertEntry_append_left (mem : List (Element K V)) (x : Element K V) {el : Nat}
    (h : el < mem.length) : assertEntry (mem ++ [x]) el = assertEntry mem el := by
  unfold assertEntry
  rw [List.getElem?_append_left h]

theorem assertEntry_append_new (mem : List (Element K V)) (kv : entry K V) :
    assertEntry (mem ++ [⟨some kv⟩]) mem.length = some kv := by
  unfold assertEntry
  simp

theorem assertEntry_set_eq (mem : List (Element K V)) (kv : entry K V) {el : Nat}
    (h : el < mem.length) : assertEntry (mem.set el ⟨some kv⟩) el = some kv := by
  unfold assertEntry
  simp [h]

theorem assertEntry_set_ne (mem : List (Element K V)) (x : Element K V) {el el' : Nat}
    (h : el ≠ el') : assertEntry (mem.set el x) el' = assertEntry mem el' := by
  unfold assertEntry
  rw [List.getElem?_set_ne h]

theorem MoveToFront_of_mem {ll : List Nat} {e : Nat} (h : e ∈ ll) :
    MoveToFront ll e = e :: ll.erase e := by
  unfold MoveToFront
  by_cases hh : ll.head? = some e
  · cases ll with
    | nil => simp at h
    | cons a t =>
      simp at hh
      subst hh
      simp
  · simp [h, hh]

theorem filterMap_congr_mem {α β : Type} (f g : α → Option β) (l : List α)
    (h : ∀ a ∈ l, f a = g a) : l.filterMap f = l.filterMap g := by
  induction l with
  | nil => rfl
  | cons a t ih =>
    have h1 := h a (List.mem_cons_self a t)
    have h2 := ih (fun b hb => h b (List.mem_cons_of_mem a hb))
    simp [List.filterMap_cons, h1, h2]

theorem nodup_filterMap_on {α β : Type} (f : α → Option β) (l : List α)
    (hinj : ∀ x ∈ l, ∀ y ∈ l, ∀ b, f x = some b → f y = some b → x = y)
    (hl : l.Nodup) : (l.filterMap f).Nodup := by
  induction l with
  | nil => simp
  | cons a t ih =>
    rw [List.nodup_cons] at hl
    have iht := ih (fun x hx y hy b h1 h2 =>
      hinj x (List.mem_cons_of_mem a hx) y (List.mem_cons_of_mem a hy) b h1 h2) hl.2
    cases hfa : f a with
    | none => rw [List.filterMap_cons_none hfa]; exact iht
    | some b =>
      rw [List.filterMap_cons_some hfa, List.nodup_cons]
      refine ⟨?_, iht⟩
      intro hb
      rw [List.mem_filterMap] at hb
      obtain ⟨y, hy, hfy⟩ := hb
      have := hinj a (List.mem_cons_self a t) y (List.mem_cons_of_mem a hy) b hfa hfy
      exact hl.1 (this ▸ hy)

theorem find?_of_mem_nodup_keys [DecidableEq K] (l : List (entry K V))
    (hl : (l.map entry.key).Nodup) (e : entry K V) (he : e ∈ l) :
    l.find? (fun x => decide (x.key = e.key)) = some e := by
  induction l with
  | nil => simp at he
  | cons a t ih =>
    rw [List.map_cons, List.nodup_cons] at hl
    rcases List.mem_cons.mp he with h | h
    · subst h
      simp
    · have hne : a.key ≠ e.key := by
        intro heq
        exact hl.1 (heq ▸ List.mem_map_of_mem entry.key h)
      rw [List.find?_cons_of_neg _ (by simpa using hne)]
      exact ih hl.2 h

theorem find?_none_of_not_mem_keys [DecidableEq K] (l : List (entry K V)) (k : K)
    (h : k ∉ l.map entry.key) : l.find? (fun x => decide (x.key = k)) = none := by
  rw [List.find?_eq_none]
  intro x hx
  simp only [decide_eq_true_eq]
  intro hk
  exact h (hk ▸ List.mem_map_of_mem entry.key hx)

theorem WF.mem_order_iff [DecidableEq K] {c : Cache K V} (e : entry K V) :
    e ∈ c.order ↔ ∃ el ∈ c.ll, assertEntry c.mem el = some e := by
  unfold Cache.order
  rw [List.mem_filterMap]

theorem WF.has_iff [DecidableEq K] {c : Cache K V} (hwf : WF c) (k : K) :
    c.has k = true ↔ k ∈ c.order.map entry.key := by
  unfold Cache.has
  constructor
  · intro h
    obtain ⟨el, hel⟩ := Option.isSome_iff_exists.mp h
    obtain ⟨hmem, kv, hkv, hk⟩ := hwf.binds k el hel
    rw [List.mem_map]
    exact ⟨kv, (WF.mem_order_iff kv).mpr ⟨el, hmem, hkv⟩, hk⟩
  · intro h
    rw [List.mem_map] at h
    obtain ⟨kv, hkv, hk⟩ := h
    obtain ⟨el, hmem, hel⟩ := (WF.mem_order_iff kv).mp hkv
    obtain ⟨kv2, h2, h3⟩ := hwf.elems el hmem
    rw [hel] at h2
    cases h2
    rw [← hk, h3]
    rfl

theorem WF.order_keys_nodup [DecidableEq K] {c : Cache K V} (hwf : WF c) :
    (c.order.map entry.key).Nodup := by
  unfold Cache.order
  rw [List.map_filterMap]
  apply nodup_filterMap_on _ _ _ hwf.nodup
  intro x hx y hy b h1 h2
  obtain ⟨kx, hkx, hmx⟩ := hwf.elems x hx
  obtain ⟨ky, hky, hmy⟩ := hwf.elems y hy
  rw [hkx] at h1
  rw [hky] at h2
  simp only [Option.map_some', Option.some.injEq] at h1 h2
  rw [h1] at hmx
  rw [h2] at hmy
  rw [hmx] at hmy
  exact Option.some.inj hmy

theorem WF.order_length [DecidableEq K] {c : Cache K V} (hwf : WF c) :
    c.order.length = c.ll.length := by
  unfold Cache.order
  have h := hwf.elems
  generalize c.ll = l at h
  induction l with
  | nil => rfl
  | cons a t ih =>
    obtain ⟨kv, hkv, _⟩ := h a (List.mem_cons_self a t)
    rw [List.filterMap_cons_some hkv, List.length_cons, List.length_cons,
      ih (fun el hel => h el (List.mem_cons_of_mem a hel))]

theorem WF_NewCache [DecidableEq K] {capacity : Int} {c : Cache K V}
    (h : NewCache K V capacity = some c) : WF c ∧ c.capacity = capacity ∧ c.order = [] := by
  unfold NewCache at h
  split at h
  · cases h
  · cases h
    refine ⟨⟨⟨?_, ?_, ?_, ?_⟩, ?_, ?_⟩, rfl, rfl⟩
    · simp
    · simp
    · simp [mapGet]
    · simp
    · simp only; omega
    · simp only [List.length_nil]; omega

theorem WF_Clear [DecidableEq K] {c : Cache K V} (hwf : WF c) :
    WF c.Clear ∧ c.Clear.capacity = c.capacity ∧ c.Clear.order = [] := by
  refine ⟨⟨⟨?_, ?_, ?_, ?_⟩, ?_, ?_⟩, rfl, rfl⟩
  · simp [Cache.Clear]
  · simp [Cache.Clear]
  · simp [Cache.Clear, mapGet]
  · simp [Cache.Clear]
  · exact hwf.capPos
  · have := hwf.capPos
    simp only [Cache.Clear, List.length_nil]
    omega

theorem filterMap_erase_eq_filter [DecidableEq K] (f : Nat → Option (entry K V)) (k : K)
    (el : Nat) (ll : List Nat) (hnd : ll.Nodup)
    (h : ∀ x ∈ ll, ∃ kv, f x = some kv ∧ (kv.key = k ↔ x = el)) :
    (ll.erase el).filterMap f = (ll.filterMap f).filter (fun x => !decide (x.key = k)) := by
  induction ll with
  | nil => simp
  | cons a t ih =>
    rw [List.nodup_cons] at hnd
    obtain ⟨kv, hkv, hiff⟩ := h a (List.mem_cons_self a t)
    have ht : ∀ x ∈ t, ∃ kv, f x = some kv ∧ (kv.key = k ↔ x = el) :=
      fun x hx => h x (List.mem_cons_of_mem a hx)
    rw [List.filterMap_cons_some hkv]
    by_cases hael : a = el
    · subst hael
      rw [List.erase_cons_head, List.filter_cons_of_neg (by simp [hiff.mpr rfl])]
      symm
      rw [List.filter_eq_self]
      intro e he
      rw [List.mem_filterMap] at he
      obtain ⟨x, hx, hfx⟩ := he
      obtain ⟨kv2, h2, hiff2⟩ := ht x hx
      rw [hfx] at h2
      cases h2
      have : x ≠ a := fun hxa => hnd.1 (hxa ▸ hx)
      simp only [Bool.not_eq_true', decide_eq_false_iff_not]
      exact fun hk => this (hiff2.mp hk)
    · have hne : ¬ kv.key = k := fun hk => hael (hiff.mp hk)
      rw [List.erase_cons_tail (by simpa using hael), List.filterMap_cons_some hkv,
        List.filter_cons_of_pos (by simpa using hne), ih hnd.2 ht]

theorem erase_getLast_eq_dropLast (l : List Nat) (hnd : l.Nodup) (last : Nat)
    (h : l.getLast? = some last) : l.erase last = l.dropLast := by
  induction l with
  | nil => simp at h
  | cons a t ih =>
    rw [List.nodup_cons] at hnd
    cases t with
    | nil =>
      simp at h
      subst h
      simp
    | cons b u =>
      rw [List.getLast?_cons_cons] at h
      have hmem : last ∈ b :: u := List.mem_of_getLast?_eq_some h
      have hne : a ≠ last := fun e => hnd.1 (e ▸ hmem)
      rw [List.erase_cons_tail (by simpa using hne), ih hnd.2 h, List.dropLast_cons₂]

theorem filterMap_dropLast {α β : Type} (f : α → Option β) (l : List α)
    (h : ∀ x ∈ l, ∃ b, f x = some b) :
    l.dropLast.filterMap f = (l.filterMap f).dropLast := by
  induction l with
  | nil => rfl
  | cons a t ih =>
    obtain ⟨b, hb⟩ := h a (List.mem_cons_self a t)
    cases t with
    | nil => simp [List.filterMap_cons_some hb]
    | cons c u =>
      obtain ⟨d, hd⟩ := h c (List.mem_cons_of_mem a (List.mem_cons_self c u))
      have iht := ih (fun x hx => h x (List.mem_cons_of_mem a hx))
      rw [List.dropLast_cons₂, List.filterMap_cons_some hb, iht, List.filterMap_cons_some hb,
        List.filterMap_cons_some hd, List.dropLast_cons₂]

theorem Get_spec [DecidableEq K] [Inhabited V] {c : Cache K V} (hwf : WF c) (k : K) :
    ∃ c1, c.Get k = some (modelLookup c.order k, c1) ∧ WF c1 ∧ c1.capacity = c.capacity ∧
      c1.order = modelGet c.order k := by
  cases hg : mapGet c.items k with
  | none =>
    have hnot : k ∉ c.order.map entry.key := by
      rw [← hwf.has_iff]
      simp [Cache.has, hg]
    have hfind := find?_none_of_not_mem_keys c.order k hnot
    refine ⟨c, ?_, hwf, rfl, ?_⟩
    · simp [Cache.Get, hg, modelLookup, hfind]
    · simp [modelGet, hfind]
  | some el =>
    obtain ⟨hmem, kv, hkv, hk⟩ := hwf.binds k el hg
    have hin : kv ∈ c.order := (WF.mem_order_iff kv).mpr ⟨el, hmem, hkv⟩
    have hfind := find?_of_mem_nodup_keys c.order hwf.order_keys_nodup kv hin
    rw [hk] at hfind
    refine ⟨{ c with ll := el :: c.ll.erase el }, ?_, ⟨⟨?_, ?_, ?_, ?_⟩, ?_, ?_⟩, rfl, ?_⟩
    · simp [Cache.Get, hg, hkv, modelLookup, hfind, MoveToFront_of_mem hmem]
    · exact List.nodup_cons.mpr ⟨fun h => (List.Nodup.mem_erase_iff hwf.nodup).mp h |>.1 rfl,
        hwf.nodup.erase el⟩
    · intro x hx
      have : x ∈ c.ll := by
        rcases List.mem_cons.mp hx with h | h
        · exact h ▸ hmem
        · exact List.mem_of_mem_erase h
      exact hwf.elems x this
    · intro k2 x hx
      obtain ⟨h1, h2⟩ := hwf.binds k2 x hx
      refine ⟨?_, h2⟩
      by_cases hxe : x = el
      · exact hxe ▸ List.mem_cons_self _ _
      · exact List.mem_cons_of_mem _ ((List.mem_erase_of_ne hxe).mpr h1)
    · exact hwf.keysNodup
    · exact hwf.capPos
    · have := hwf.lenLe
      have h2 := List.length_erase_of_mem hmem
      have h3 : 0 < c.ll.length := List.length_pos_of_mem hmem
      simp only [List.length_cons, h2]
      omega
    · simp only [modelGet, hfind]
      show (el :: c.ll.erase el).filterMap (assertEntry c.mem) = _
      rw [List.filterMap_cons_some hkv]
      congr 1
      apply filterMap_erase_eq_filter _ k el c.ll hwf.nodup
      intro x hx
      obtain ⟨kx, hkx, hmx⟩ := hwf.elems x hx
      refine ⟨kx, hkx, ?_, ?_⟩
      · intro hkk
        rw [hkk, hg] at hmx
        exact (Option.some.inj hmx).symm
      · intro hxe
        rw [hxe, hkv] at hkx
        cases hkx
        exact hk

theorem Set_hit_spec [DecidableEq K] {c : Cache K V} (hwf : WF c) (k : K) (v : V) (el : Nat)
    (hg : mapGet c.items k = some el) :
    ∃ c1, c.Set k v = some c1 ∧ WF c1 ∧ c1.capacity = c.capacity ∧ c1.items = c.items ∧
      c1.order = ⟨k, v⟩ :: c.order.filter (fun x => !decide (x.key = k)) := by
  obtain ⟨hmem, kv, hkv, hk⟩ := hwf.binds k el hg
  have hlt : el < c.mem.length := assertEntry_lt hkv
  have hoff : ∀ x ∈ c.ll.erase el,
      assertEntry (c.mem.set el ⟨some ⟨k, v⟩⟩) x = assertEntry c.mem x := by
    intro x hx
    have hne : el ≠ x := fun e => ((List.Nodup.mem_erase_iff hwf.nodup).mp hx).1 e.symm
    exact assertEntry_set_ne c.mem _ hne
  refine ⟨{ c with mem := c.mem.set el ⟨some ⟨k, v⟩⟩, ll := el :: c.ll.erase el },
    ?_, ⟨⟨?_, ?_, ?_, ?_⟩, ?_, ?_⟩, rfl, rfl, ?_⟩
  · simp [Cache.Set, hg, hlt, MoveToFront_of_mem hmem]
  · exact List.nodup_cons.mpr ⟨fun h => (List.Nodup.mem_erase_iff hwf.nodup).mp h |>.1 rfl,
      hwf.nodup.erase el⟩
  · intro x hx
    rcases List.mem_cons.mp hx with h | h
    · subst h
      exact ⟨⟨k, v⟩, assertEntry_set_eq c.mem _ hlt, hg⟩
    · obtain ⟨kx, hkx, hmx⟩ := hwf.elems x (List.mem_of_mem_erase h)
      exact ⟨kx, by rw [hoff x h]; exact hkx, hmx⟩
  · intro k2 x hx
    obtain ⟨h1, kx, hkx, hkk⟩ := hwf.binds k2 x hx
    by_cases hxe : x = el
    · subst hxe
      refine ⟨List.mem_cons_self _ _, ⟨k, v⟩, assertEntry_set_eq c.mem _ hlt, ?_⟩
      rw [hkv] at hkx
      cases hkx
      exact hk.symm.trans hkk
    · have hx2 : x ∈ c.ll.erase el := (List.mem_erase_of_ne hxe).mpr h1
      exact ⟨List.mem_cons_of_mem _ hx2, kx, by rw [hoff x hx2]; exact hkx, hkk⟩
  · exact hwf.keysNodup
  · exact hwf.capPos
  · have := hwf.lenLe
    have h2 := List.length_erase_of_mem hmem
    have h3 : 0 < c.ll.length := List.length_pos_of_mem hmem
    simp only [List.length_cons, h2]
    omega
  · show (el :: c.ll.erase el).filterMap (assertEntry (c.mem.set el ⟨some ⟨k, v⟩⟩)) = _
    rw [List.filterMap_cons_some (assertEntry_set_eq c.mem _ hlt)]
    congr 1
    rw [filterMap_congr_mem _ _ _ hoff]
    apply filterMap_erase_eq_filter _ k el c.ll hwf.nodup
    intro x hx
    obtain ⟨kx, hkx, hmx⟩ := hwf.elems x hx
    refine ⟨kx, hkx, ?_, ?_⟩
    · intro hkk
      rw [hkk, hg] at hmx
      exact (Option.some.inj hmx).symm
    · intro hxe
      rw [hxe, hkv] at hkx
      cases hkx
      exact hk

theorem pushed_sound [DecidableEq K] {c : Cache K V} (hwf : WF c) (k : K) (v : V)
    (hg : mapGet c.items k = none) :
    Linked (pushed c k v) ∧ (pushed c k v).order = ⟨k, v⟩ :: c.order := by
  have hfresh : c.mem.length ∉ c.ll := by
    intro h
    obtain ⟨kv, hkv, _⟩ := hwf.elems _ h
    exact Nat.lt_irrefl _ (assertEntry_lt hkv)
  have hold : ∀ x ∈ c.ll, assertEntry (c.mem ++ [⟨some ⟨k, v⟩⟩]) x = assertEntry c.mem x := by
    intro x hx
    obtain ⟨kv, hkv, _⟩ := hwf.elems x hx
    exact assertEntry_append_left c.mem _ (assertEntry_lt hkv)
  refine ⟨⟨?_, ?_, ?_, ?_⟩, ?_⟩
  · exact List.nodup_cons.mpr ⟨hfresh, hwf.nodup⟩
  · intro x hx
    rcases List.mem_cons.mp hx with h | h
    · subst h
      refine ⟨⟨k, v⟩, assertEntry_append_new c.mem _, ?_⟩
      simp [pushed, mapGet_mapSet]
    · obtain ⟨kx, hkx, hmx⟩ := hwf.elems x h
      refine ⟨kx, by simp only [pushed]; rw [hold x h]; exact hkx, ?_⟩
      have hne : ¬ k = kx.key := by
        intro e
        rw [← e, hg] at hmx
        cases hmx
      simp only [pushed, mapGet_mapSet, if_neg hne]
      exact hmx
  · intro k2 x hx
    simp only [pushed, mapGet_mapSet] at hx
    by_cases hkk : k = k2
    · rw [if_pos hkk] at hx
      cases hx
      exact ⟨List.mem_cons_self _ _, ⟨k, v⟩, assertEntry_append_new c.mem _, hkk⟩
    · rw [if_neg hkk] at hx
      obtain ⟨h1, kx, hkx, hk2⟩ := hwf.binds k2 x hx
      exact ⟨List.mem_cons_of_mem _ h1, kx, by simp only [pushed]; rw [hold x h1]; exact hkx, hk2⟩
  · exact mapSet_keys_nodup _ _ _ hwf.keysNodup
  · show (c.mem.length :: c.ll).filterMap (assertEntry (c.mem ++ [⟨some ⟨k, v⟩⟩])) = _
    rw [List.filterMap_cons_some (assertEntry_append_new c.mem _)]
    congr 1
    exact filterMap_congr_mem _ _ _ hold

theorem evict_linked [DecidableEq K] {p : Cache K V} (hp : Linked p) (last : Nat)
    (hmem : last ∈ p.ll) (kv : entry K V) (hkv : assertEntry p.mem last = some kv) :
    Linked { mem := p.mem, ll := Remove p.ll last, items := mapDelete p.items kv.key,
             capacity := p.capacity } := by
  have hlast : mapGet p.items kv.key = some last := by
    obtain ⟨k2, h2, h3⟩ := hp.elems last hmem
    rw [hkv] at h2
    cases h2
    exact h3
  refine ⟨?_, ?_, ?_, ?_⟩
  · exact hp.nodup.erase last
  · intro x hx
    have hx1 : x ∈ p.ll := List.mem_of_mem_erase hx
    have hx2 : x ≠ last := ((List.Nodup.mem_erase_iff hp.nodup).mp hx).1
    obtain ⟨kx, hkx, hmx⟩ := hp.elems x hx1
    refine ⟨kx, hkx, ?_⟩
    have hne : ¬ kv.key = kx.key := by
      intro e
      rw [e, hmx] at hlast
      exact hx2 (Option.some.inj hlast)
    simp only [mapGet_mapDelete, if_neg hne]
    exact hmx
  · intro k2 x hx
    simp only [mapGet_mapDelete] at hx
    by_cases hkk : kv.key = k2
    · rw [if_pos hkk] at hx
      cases hx
    · rw [if_neg hkk] at hx
      obtain ⟨h1, kx, hkx, hk2⟩ := hp.binds k2 x hx
      have hne : x ≠ last := by
        intro e
        rw [e, hkv] at hkx
        cases hkx
        exact hkk hk2
      exact ⟨(List.mem_erase_of_ne hne).mpr h1, kx, hkx, hk2⟩
  · exact mapDelete_keys_nodup _ _ hp.keysNodup

theorem Set_unfold_miss [DecidableEq K] (c : Cache K V) (k : K) (v : V)
    (hg : mapGet c.items k = none) :
    c.Set k v =
      if ((pushed c k v).ll.length : Int) > c.capacity then
        match Back (pushed c k v).ll with
        | some last =>
          match assertEntry (pushed c k v).mem last with
          | some kv =>
            some { mem := (pushed c k v).mem, ll := Remove (pushed c k v).ll last,
                   items := mapDelete (pushed c k v).items kv.key, capacity := c.capacity }
          | none => none
        | none => some (pushed c k v)
      else some (pushed c k v) := by
  unfold Cache.Set
  rw [hg]
  rfl

theorem Set_miss_spec [DecidableEq K] {c : Cache K V} (hwf : WF c) (k : K) (v : V)
    (hg : mapGet c.items k = none) :
    ∃ c1, c.Set k v = some c1 ∧ WF c1 ∧ c1.capacity = c.capacity ∧
      c1.order = if (c.order.length : Int) + 1 > c.capacity then ⟨k, v⟩ :: c.order.dropLast
                 else ⟨k, v⟩ :: c.order := by
  obtain ⟨hlinked, hord⟩ := pushed_sound hwf k v hg
  have hlen : (pushed c k v).ll.length = c.ll.length + 1 := rfl
  rw [Set_unfold_miss c k v hg, hwf.order_length, hlen]
  push_cast
  by_cases hfull : (c.ll.length : Int) + 1 > c.capacity
  · rw [if_pos hfull, if_pos hfull]
    have hpos : 0 < c.ll.length := by
      have h1 := hwf.capPos
      have h2 := hwf.lenLe
      omega
    have hne : c.ll ≠ [] := List.ne_nil_of_length_pos hpos
    obtain ⟨last, hlast⟩ : ∃ last, c.ll.getLast? = some last := by
      cases hc : c.ll.getLast? with
      | none => exact absurd (List.getLast?_eq_none_iff.mp hc) hne
      | some x => exact ⟨x, rfl⟩
    have hback : Back (pushed c k v).ll = some last := by
      show (c.mem.length :: c.ll).getLast? = some last
      rw [← hlast]
      cases hc : c.ll with
      | nil => exact absurd hc hne
      | cons a t => rw [List.getLast?_cons_cons]
    have hmem0 : last ∈ c.ll := List.mem_of_getLast?_eq_some hlast
    have hmem : last ∈ (pushed c k v).ll := List.mem_cons_of_mem _ hmem0
    obtain ⟨kv, hkv, _⟩ := hlinked.elems last hmem
    rw [hback]
    simp only [hkv]
    refine ⟨_, rfl, ⟨evict_linked hlinked last hmem kv hkv, hwf.capPos, ?_⟩, rfl, ?_⟩
    · have h2 := hwf.lenLe
      have h3 : ((pushed c k v).ll.erase last).length = (pushed c k v).ll.length - 1 :=
        List.length_erase_of_mem hmem
      simp only [Remove, h3, hlen]
      omega
    · show (Remove (pushed c k v).ll last).filterMap (assertEntry (pushed c k v).mem) = _
      have hnd := hlinked.nodup
      unfold Remove
      rw [erase_getLast_eq_dropLast _ hnd last hback,
        filterMap_dropLast _ _ (fun x hx => by
          obtain ⟨kx, hkx, _⟩ := hlinked.elems x hx
          exact ⟨kx, hkx⟩)]
      have : (pushed c k v).ll.filterMap (assertEntry (pushed c k v).mem)
          = (pushed c k v).order := rfl
      rw [this, hord]
      have hone : c.order ≠ [] := by
        intro h
        have := hwf.order_length
        rw [h] at this
        simp at this
        omega
      cases hc : c.order with
      | nil => exact absurd hc hone
      | cons a t => rw [List.dropLast_cons₂]
  · rw [if_neg hfull, if_neg hfull]
    refine ⟨_, rfl, ⟨hlinked, hwf.capPos, ?_⟩, rfl, hord⟩
    show ((pushed c k v).ll.length : Int) ≤ c.capacity
    rw [hlen]
    push_cast
    omega

theorem Set_spec [DecidableEq K] {c : Cache K V} (hwf : WF c) (k : K) (v : V) :
    ∃ c1, c.Set k v = some c1 ∧ WF c1 ∧ c1.capacity = c.capacity ∧
      c1.order = modelSet c.capacity c.order k v := by
  unfold modelSet
  cases hg : mapGet c.items k with
  | none =>
    have hnot : k ∉ c.order.map entry.key := by
      rw [← hwf.has_iff]
      simp [Cache.has, hg]
    rw [if_neg hnot]
    exact Set_miss_spec hwf k v hg
  | some el =>
    have hin : k ∈ c.order.map entry.key := by
      rw [← hwf.has_iff]
      simp [Cache.has, hg]
    rw [if_pos hin]
    obtain ⟨c1, h1, h2, h3, _, h5⟩ := Set_hit_spec hwf k v el hg
    exact ⟨c1, h1, h2, h3, h5⟩

theorem step_spec [DecidableEq K] [Inhabited V] {c : Cache K V} (hwf : WF c) (op : Op K V) :
    ∃ c1, c.step op = some c1 ∧ WF c1 ∧ c1.capacity = c.capacity ∧
      c1.order = modelStep c.capacity c.order op := by
  cases op with
  | Set k v => exact Set_spec hwf k v
  | Get k =>
    obtain ⟨c1, h1, h2, h3, h4⟩ := Get_spec hwf k
    exact ⟨c1, by simp [Cache.step, h1], h2, h3, h4⟩
  | Clear =>
    obtain ⟨h1, h2, h3⟩ := WF_Clear hwf
    exact ⟨c.Clear, rfl, h1, h2, h3⟩
  | Len => exact ⟨c, rfl, hwf, rfl, rfl⟩
  | Cap => exact ⟨c, rfl, hwf, rfl, rfl⟩

theorem run_spec [DecidableEq K] [Inhabited V] {c : Cache K V} (hwf : WF c)
    (ops : List (Op K V)) :
    ∃ c1, c.run ops = some c1 ∧ WF c1 ∧ c1.capacity = c.capacity ∧
      c1.order = modelRun c.capacity c.order ops := by
  induction ops generalizing c with
  | nil => exact ⟨c, rfl, hwf, rfl, rfl⟩
  | cons op ops ih =>
    obtain ⟨c1, h1, h2, h3, h4⟩ := step_spec hwf op
    obtain ⟨c2, g1, g2, g3, g4⟩ := ih h2
    refine ⟨c2, ?_, g2, g3.trans h3, ?_⟩
    · simp [Cache.run, h1, g1]
    · rw [g4, h3, h4]
      rfl

theorem runNew_spec [DecidableEq K] [Inhabited V] {capacity : Int} (hcap : 0 < capacity)
    (ops : List (Op K V)) :
    ∃ c, runNew K V capacity ops = some c ∧ WF c ∧ c.capacity = capacity ∧
      c.order = modelRun capacity [] ops := by
  have hnew : NewCache K V capacity
      = some { mem := [], ll := [], items := [], capacity := capacity } := by
    unfold NewCache
    rw [if_neg (by omega)]
  obtain ⟨hwf, h2, h3⟩ := WF_NewCache hnew
  obtain ⟨c1, g1, g2, g3, g4⟩ := run_spec hwf ops
  refine ⟨c1, ?_, g2, g3, ?_⟩
  · simp [runNew, hnew, g1]
  · rw [g4, h3]

theorem runNew_some_pos [DecidableEq K] [Inhabited V] {capacity : Int} {ops : List (Op K V)}
    {c : Cache K V} (h : runNew K V capacity ops = some c) : 0 < capacity := by
  by_contra hle
  unfold runNew NewCache at h
  rw [if_pos (by omega)] at h
  cases h

theorem Reachable.wf [DecidableEq K] [Inhabited V] {c : Cache K V} (h : Reachable c) : WF c := by
  obtain ⟨capacity, ops, hrun⟩ := h
  obtain ⟨c1, h1, h2, _, _⟩ := runNew_spec (K := K) (V := V) (runNew_some_pos hrun) ops
  rw [hrun] at h1
  cases h1
  exact h2

theorem model_keys_nodup [DecidableEq K] [Inhabited V] {capacity : Int} (hcap : 0 < capacity)
    (ops : List (Op K V)) : ((modelRun capacity [] ops).map entry.key).Nodup := by
  obtain ⟨c, _, h2, _, h4⟩ := runNew_spec (K := K) (V := V) hcap ops
  rw [← h4]
  exact h2.order_keys_nodup

theorem modelRun_snoc [DecidableEq K] (cap : Int) (l : List (entry K V)) (ops : List (Op K V))
    (op : Op K V) : modelRun cap l (ops ++ [op]) = modelStep cap (modelRun cap l ops) op := by
  simp [modelRun, List.foldl_append]

theorem lastSet_snoc [DecidableEq K] (ops : List (Op K V)) (op : Op K V) (k : K) :
    lastSet (ops ++ [op]) k =
      match op with
      | .Set k2 v => if k2 = k then some v else lastSet ops k
      | _ => lastSet ops k := by
  simp only [lastSet, List.foldl_append, List.foldl_cons, List.foldl_nil]

theorem mem_modelSet [DecidableEq K] {cap : Int} {l : List (entry K V)} {k : K} {v : V}
    {e : entry K V} (h : e ∈ modelSet cap l k v) : e = ⟨k, v⟩ ∨ (e ∈ l ∧ e.key ≠ k) := by
  unfold modelSet at h
  split_ifs at h with h1 h2
  · rcases List.mem_cons.mp h with h | h
    · exact Or.inl h
    · rw [List.mem_filter] at h
      exact Or.inr ⟨h.1, by simpa using h.2⟩
  · rcases List.mem_cons.mp h with h | h
    · exact Or.inl h
    · have hl : e ∈ l := List.mem_of_mem_dropLast h
      exact Or.inr ⟨hl, fun hk => h1 (hk ▸ List.mem_map_of_mem entry.key hl)⟩
  · rcases List.mem_cons.mp h with h | h
    · exact Or.inl h
    · exact Or.inr ⟨h, fun hk => h1 (hk ▸ List.mem_map_of_mem entry.key h)⟩

theorem mem_modelGet [DecidableEq K] {l : List (entry K V)} {k : K} {e : entry K V}
    (h : e ∈ modelGet l k) : e ∈ l := by
  unfold modelGet at h
  split at h
  · next x hx =>
    rcases List.mem_cons.mp h with h | h
    · exact h ▸ List.mem_of_find?_eq_some hx
    · exact (List.mem_filter.mp h).1
  · exact h

theorem model_lastSet [DecidableEq K] (cap : Int) (ops : List (Op K V)) :
    ∀ e ∈ modelRun cap [] ops, lastSet ops e.key = some e.value := by
  induction ops using List.reverseRecOn with
  | nil => intro e he; simp [modelRun] at he
  | append_singleton ops op ih =>
    intro e he
    rw [modelRun_snoc] at he
    rw [lastSet_snoc]
    cases op with
    | Set k v =>
      rcases mem_modelSet he with h | ⟨h1, h2⟩
      · subst h
        simp
      · simp only [if_neg (Ne.symm h2)]
        exact ih e h1
    | Get k => exact ih e (mem_modelGet he)
    | Clear => simp [modelStep] at he
    | Len => exact ih e he
    | Cap => exact ih e he

theorem split_at_key [DecidableEq K] (l : List (entry K V)) (hl : (l.map entry.key).Nodup)
    (e : entry K V) (he : e ∈ l) :
    ∃ pre post, l = pre ++ e :: post ∧
      l.filter (fun x => !decide (x.key = e.key)) = pre ++ post ∧
      ∀ x ∈ pre ++ post, x.key ≠ e.key := by
  obtain ⟨pre, post, hsplit⟩ := List.append_of_mem he
  subst hsplit
  rw [List.map_append, List.map_cons] at hl
  have hpre : ∀ x ∈ pre, x.key ≠ e.key := by
    intro x hx hk
    have h1 := (List.nodup_append.mp hl).2.2
    exact h1 (List.mem_map_of_mem entry.key hx) (hk ▸ List.mem_cons_self _ _)
  have hpost : ∀ x ∈ post, x.key ≠ e.key := by
    intro x hx hk
    have h1 := (List.nodup_cons.mp (List.nodup_append.mp hl).2.1).1
    exact h1 (hk ▸ List.mem_map_of_mem entry.key hx)
  refine ⟨pre, post, rfl, ?_, ?_⟩
  · rw [List.filter_append, List.filter_cons_of_neg (by simp),
      List.filter_eq_self.mpr (fun x hx => by simpa using hpre x hx),
      List.filter_eq_self.mpr (fun x hx => by simpa using hpost x hx)]
  · intro x hx
    rcases List.mem_append.mp hx with h | h
    · exact hpre x h
    · exact hpost x h

theorem WF.len_eq [DecidableEq K] {c : Cache K V} (hwf : WF c) :
    c.Len = (c.order.length : Int) := by
  rw [hwf.order_length]
  rfl

theorem has_eq_of_keys [DecidableEq K] {c c1 : Cache K V} (hwf : WF c) (hwf1 : WF c1) (k : K)
    (h : k ∈ c1.order.map entry.key ↔ k ∈ c.order.map entry.key) : c1.has k = c.has k := by
  rw [Bool.eq_iff_iff, hwf.has_iff, hwf1.has_iff]
  exact h

theorem has_false_iff [DecidableEq K] {c : Cache K V} (hwf : WF c) (k : K) :
    c.has k = false ↔ k ∉ c.order.map entry.key := by
  rw [← hwf.has_iff]
  simp

theorem sampleFull_reachable : Reachable sampleFull :=
  ⟨2, [.Set 1 10, .Set 2 20], by decide⟩

theorem sampleRoomy_reachable : Reachable sampleRoomy :=
  ⟨3, [.Set 1 10, .Set 2 20], by decide⟩

theorem getLast?_split {α : Type} (l : List α) (hl : l ≠ []) :
    ∃ back, l.getLast? = some back ∧ l = l.dropLast ++ [back] := by
  refine ⟨l.getLast hl, List.getLast?_eq_getLast l hl, ?_⟩
  exact (List.dropLast_append_getLast hl).symm

theorem lastAccess_snoc [DecidableEq K] (ops : List (Op K V)) (op : Op K V) (k : K) :
    lastAccess (ops ++ [op]) k = if op.touches k then ops.length + 1 else lastAccess ops k := by
  simp [lastAccess, lastAccessRev]

theorem lastAccessRev_le [DecidableEq K] (k : K) (ops : List (Op K V)) :
    lastAccessRev k ops ≤ ops.length := by
  induction ops with
  | nil => simp [lastAccessRev]
  | cons op older ih =>
    simp only [lastAccessRev, List.length_cons]
    split_ifs <;> omega

theorem lastAccess_le [DecidableEq K] (ops : List (Op K V)) (k : K) :
    lastAccess ops k ≤ ops.length := by
  have := lastAccessRev_le k ops.reverse
  simpa [lastAccess] using this

theorem modelSet_shape [DecidableEq K] (cap : Int) (l : List (entry K V)) (k : K) (v : V) :
    ∃ rest, modelSet cap l k v = ⟨k, v⟩ :: rest ∧ List.Sublist rest l ∧
      ∀ x ∈ rest, x.key ≠ k := by
  unfold modelSet
  split_ifs with h1 h2
  · refine ⟨_, rfl, List.filter_sublist l, ?_⟩
    intro x hx
    simpa using (List.mem_filter.mp hx).2
  · refine ⟨_, rfl, List.dropLast_sublist l, ?_⟩
    intro x hx hk
    exact h1 (hk ▸ List.mem_map_of_mem entry.key (List.mem_of_mem_dropLast hx))
  · refine ⟨_, rfl, List.Sublist.refl l, ?_⟩
    intro x hx hk
    exact h1 (hk ▸ List.mem_map_of_mem entry.key hx)

theorem modelGet_shape [DecidableEq K] (l : List (entry K V)) (k : K) :
    (modelGet l k = l ∧ ∀ x ∈ l, x.key ≠ k) ∨
    ∃ e rest, modelGet l k = e :: rest ∧ e.key = k ∧ e ∈ l ∧ List.Sublist rest l ∧
      (∀ x ∈ rest, x.key ≠ k) ∧ ∀ x ∈ l, x.key ≠ k → x ∈ rest := by
  unfold modelGet
  cases hf : l.find? (fun x => decide (x.key = k)) with
  | none =>
    left
    refine ⟨rfl, ?_⟩
    intro x hx
    simpa using (List.find?_eq_none.mp hf) x hx
  | some e =>
    right
    refine ⟨e, _, rfl, by simpa using List.find?_some hf, List.mem_of_find?_eq_some hf,
      List.filter_sublist l, ?_, ?_⟩
    · intro x hx
      simpa using (List.mem_filter.mp hx).2
    · intro x hx hk
      exact List.mem_filter.mpr ⟨hx, by simpa using hk⟩

theorem model_recency [DecidableEq K] (cap : Int) (ops : List (Op K V)) :
    (modelRun cap [] ops).Pairwise
      (fun a b => lastAccess ops b.key < lastAccess ops a.key) := by
  induction ops using List.reverseRecOn with
  | nil => simp [modelRun]
  | append_singleton ops op ih =>
    rw [modelRun_snoc]
    have hfront : ∀ (e : entry K V) (rest : List (entry K V)), op.touches e.key = true →
        List.Sublist rest (modelRun cap [] ops) → (∀ x ∈ rest, op.touches x.key = false) →
        (e :: rest).Pairwise
          (fun a b => lastAccess (ops ++ [op]) b.key < lastAccess (ops ++ [op]) a.key) := by
      intro e rest he hsub hrest
      rw [List.pairwise_cons]
      constructor
      · intro x hx
        rw [lastAccess_snoc, lastAccess_snoc, if_pos he, hrest x hx]
        have := lastAccess_le ops x.key
        simp only [Bool.false_eq_true, if_false]
        omega
      · apply List.Pairwise.imp_of_mem _ (List.Pairwise.sublist hsub ih)
        intro a b ha hb hab
        rw [lastAccess_snoc, lastAccess_snoc, hrest a ha, hrest b hb]
        simpa using hab
    have hsame : (∀ x ∈ modelRun cap [] ops, op.touches x.key = false) →
        (modelRun cap [] ops).Pairwise
          (fun a b => lastAccess (ops ++ [op]) b.key < lastAccess (ops ++ [op]) a.key) := by
      intro hno
      apply List.Pairwise.imp_of_mem _ ih
      intro a b ha hb hab
      rw [lastAccess_snoc, lastAccess_snoc, hno a ha, hno b hb]
      simpa using hab
    cases op with
    | Set k v =>
      obtain ⟨rest, h1, h2, h3⟩ := modelSet_shape cap (modelRun cap [] ops) k v
      simp only [modelStep, h1]
      exact hfront ⟨k, v⟩ rest (by simp [Op.touches]) h2
        (fun x hx => by simpa [Op.touches] using (h3 x hx).symm)
    | Get k =>
      rcases modelGet_shape (modelRun cap [] ops) k with ⟨h1, h2⟩ | ⟨e, rest, h1, h2, _, h4, h5, _⟩
      · simp only [modelStep, h1]
        exact hsame (fun x hx => by simpa [Op.touches] using (h2 x hx).symm)
      · simp only [modelStep, h1]
        exact hfront e rest (by simp [Op.touches, h2]) h4
          (fun x hx => by simpa [Op.touches] using (h5 x hx).symm)
    | Clear => simp [modelStep]
    | Len => exact hsame (fun x _ => rfl)
    | Cap => exact hsame (fun x _ => rfl)

theorem modelRun_append [DecidableEq K] (cap : Int) (l : List (entry K V))
    (ops1 ops2 : List (Op K V)) :
    modelRun cap l (ops1 ++ ops2) = modelRun cap (modelRun cap l ops1) ops2 := by
  simp [modelRun, List.foldl_append]

theorem model_setAll [DecidableEq K] (cap : Int) (kvs : List (K × V))
    (hnd : (kvs.map Prod.fst).Nodup) (hlen : (kvs.length : Int) ≤ cap) :
    (modelRun cap [] (setAll kvs)).map entry.key = (kvs.map Prod.fst).reverse := by
  induction kvs using List.reverseRecOn with
  | nil => rfl
  | append_singleton kvs p ih =>
    rw [List.map_append, List.nodup_append] at hnd
    have hlen2 : (kvs.length : Int) + 1 ≤ cap := by
      rw [List.length_append] at hlen
      push_cast at hlen
      simpa using hlen
    have ih2 := ih hnd.1 (by omega)
    have hsnoc : setAll (kvs ++ [p]) = setAll kvs ++ [Op.Set p.1 p.2] := by
      simp [setAll]
    rw [hsnoc, modelRun_snoc]
    have hnot : p.1 ∉ (modelRun cap [] (setAll kvs)).map entry.key := by
      rw [ih2, List.mem_reverse]
      intro h
      exact hnd.2.2 h (by simp)
    have hl : (modelRun cap [] (setAll kvs)).length = kvs.length := by
      have := congrArg List.length ih2
      simpa using this
    simp only [modelStep, modelSet, if_neg hnot, hl]
    rw [if_neg (by omega)]
    simp [ih2]

theorem modelSet_keys_of_mem [DecidableEq K] (cap : Int) (l : List (entry K V)) (k : K) (v : V)
    (hk : k ∈ l.map entry.key) (x : K) :
    x ∈ (modelSet cap l k v).map entry.key ↔ x ∈ l.map entry.key := by
  unfold modelSet
  rw [if_pos hk]
  simp only [List.map_cons, List.mem_cons, List.mem_map, List.mem_filter]
  constructor
  · rintro (h | ⟨e, ⟨he, _⟩, hx⟩)
    · rw [h]
      exact List.mem_map.mp hk
    · exact ⟨e, he, hx⟩
  · rintro ⟨e, he, hx⟩
    by_cases hxk : x = k
    · exact Or.inl hxk
    · refine Or.inr ⟨e, ⟨he, ?_⟩, hx⟩
      simp only [Bool.not_eq_true', decide_eq_false_iff_not]
      exact fun h => hxk (hx ▸ h)

theorem modelGet_keys [DecidableEq K] (l : List (entry K V)) (k : K) (x : K) :
    x ∈ (modelGet l k).map entry.key ↔ x ∈ l.map entry.key := by
  rcases modelGet_shape l k with ⟨h1, _⟩ | ⟨e, rest, h1, h2, h3, h4, h5, h6⟩
  · rw [h1]
  · rw [h1]
    simp only [List.map_cons, List.mem_cons, List.mem_map]
    constructor
    · rintro (h | ⟨y, hy, hx⟩)
      · exact ⟨e, h3, h.symm⟩
      · exact ⟨y, h4.subset hy, hx⟩
    · rintro ⟨y, hy, hx⟩
      by_cases hyk : y.key = k
      · exact Or.inl (by rw [← hx, hyk, h2])
      · exact Or.inr ⟨y, h6 y hy hyk, hx⟩

theorem model_onKeys [DecidableEq K] (cap : Int) (keys : List K) (ops : List (Op K V))
    (hops : ∀ op ∈ ops, op.onKeys keys = true) (l : List (entry K V))
    (hl : ∀ x, x ∈ l.map entry.key ↔ x ∈ keys) :
    ∀ x, x ∈ (modelRun cap l ops).map entry.key ↔ x ∈ keys := by
  induction ops generalizing l with
  | nil => exact hl
  | cons op ops ih =>
    have hstep : modelRun cap l (op :: ops) = modelRun cap (modelStep cap l op) ops := rfl
    rw [hstep]
    apply ih (fun o ho => hops o (List.mem_cons_of_mem op ho))
    have hop := hops op (List.mem_cons_self op ops)
    intro x
    cases op with
    | Set k v =>
      have hk : k ∈ l.map entry.key := (hl k).mpr (by simpa [Op.onKeys] using hop)
      exact (modelSet_keys_of_mem cap l k v hk x).trans (hl x)
    | Get k => exact (modelGet_keys l k x).trans (hl x)
    | Clear => simp [Op.onKeys] at hop
    | Len => simp [Op.onKeys] at hop
    | Cap => simp [Op.onKeys] at hop

theorem length_eq_of_same_keys [DecidableEq K] (l : List (entry K V)) (keys : List K)
    (h1 : (l.map entry.key).Nodup) (h2 : keys.Nodup)
    (h : ∀ x, x ∈ l.map entry.key ↔ x ∈ keys) : l.length = keys.length := by
  have := ((List.perm_ext_iff_of_nodup h1 h2).mpr h).length_eq
  simpa using this

theorem Get_of_mem_order [DecidableEq K] [Inhabited V] {c : Cache K V} (hwf : WF c)
    (e : entry K V) (he : e ∈ c.order) : ∃ c1, c.Get e.key = some ((e.value, true), c1) := by
  obtain ⟨c1, h1, _⟩ := Get_spec hwf e.key
  have hfind := find?_of_mem_nodup_keys c.order hwf.order_keys_nodup e he
  simp only [modelLookup, hfind] at h1
  exact ⟨c1, h1⟩

theorem Get_of_not_mem [DecidableEq K] [Inhabited V] {c : Cache K V} (hwf : WF c)
    (k : K) (hk : k ∉ c.order.map entry.key) : ∃ c1, c.Get k = some ((default, false), c1) := by
  obtain ⟨c1, h1, _⟩ := Get_spec hwf k
  have hfind := find?_none_of_not_mem_keys c.order k hk
  simp only [modelLookup, hfind] at h1
  exact ⟨c1, h1⟩

theorem sampleOne_reachable : Reachable sampleOne :=
  ⟨1, [.Set 1 10], by decide⟩

theorem keys_length_eq [DecidableEq K] {c : Cache K V} (hwf : WF c) :
    c.items.length = c.ll.length := by
  have h1 : c.keys.length = c.order.length := by
    have hperm := (List.perm_ext_iff_of_nodup hwf.keysNodup hwf.order_keys_nodup).mpr
      (fun k => by
        rw [← hwf.has_iff]
        exact (mapGet_isSome_iff c.items k).symm)
    simpa [Cache.keys] using hperm.length_eq
  rw [← hwf.order_length, ← h1]
  simp [Cache.keys]

theorem modelSet_rest [DecidableEq K] (cap : Int) (l : List (entry K V)) (k : K) :
    ∃ rest, (∀ v, modelSet cap l k v = ⟨k, v⟩ :: rest) ∧ ∀ x ∈ rest, x.key ≠ k := by
  unfold modelSet
  split_ifs with h1 h2
  · refine ⟨_, fun _ => rfl, ?_⟩
    intro x hx
    simpa using (List.mem_filter.mp hx).2
  · refine ⟨_, fun _ => rfl, ?_⟩
    intro x hx hk
    exact h1 (hk ▸ List.mem_map_of_mem entry.key (List.mem_of_mem_dropLast hx))
  · refine ⟨_, fun _ => rfl, ?_⟩
    intro x hx hk
    exact h1 (hk ▸ List.mem_map_of_mem entry.key hx)

theorem modelSet_absorb [DecidableEq K] (cap : Int) (l : List (entry K V)) (k : K) (u v : V) :
    modelSet cap (modelSet cap l k u) k v = modelSet cap l k v := by
  obtain ⟨rest, h1, h2⟩ := modelSet_rest cap l k
  rw [h1 u, h1 v]
  unfold modelSet
  rw [if_pos (by simp)]
  congr 1
  rw [List.filter_cons_of_neg (by simp)]
  exact List.filter_eq_self.mpr (fun x hx => by simpa using h2 x hx)

theorem call_spec [DecidableEq K] [Inhabited V] {c : Cache K V} (hwf : WF c) (op : Op K V) :
    ∃ c1, c.call op = some (modelResult c.capacity c.order op, c1) ∧ WF c1 ∧
      c1.capacity = c.capacity ∧ c1.order = modelStep c.capacity c.order op := by
  cases op with
  | Set k v =>
    obtain ⟨c1, h1, h2, h3, h4⟩ := Set_spec hwf k v
    exact ⟨c1, by simp [Cache.call, h1, modelResult], h2, h3, h4⟩
  | Get k =>
    obtain ⟨c1, h1, h2, h3, h4⟩ := Get_spec hwf k
    exact ⟨c1, by simp [Cache.call, h1, modelResult], h2, h3, h4⟩
  | Clear =>
    obtain ⟨h1, h2, h3⟩ := WF_Clear hwf
    exact ⟨c.Clear, rfl, h1, h2, h3⟩
  | Len => exact ⟨c, by simp [Cache.call, modelResult, hwf.len_eq], hwf, rfl, rfl⟩
  | Cap => exact ⟨c, rfl, hwf, rfl, rfl⟩

theorem results_spec [DecidableEq K] [Inhabited V] {c : Cache K V} (hwf : WF c)
    (ops : List (Op K V)) :
    c.results ops = some (modelResults c.capacity c.order ops) := by
  induction ops generalizing c with
  | nil => rfl
  | cons op ops ih =>
    obtain ⟨c1, h1, h2, h3, h4⟩ := call_spec hwf op
    simp only [Cache.results, h1, Option.some_bind, ih h2, h3, h4, Option.map_some',
      modelResults]

theorem Peek_spec [DecidableEq K] [Inhabited V] {c : Cache K V} (hwf : WF c) (k : K) :
    c.Peek k = some (modelLookup c.order k, c) := by
  cases hg : mapGet c.items k with
  | none =>
    have hnot : k ∉ c.order.map entry.key := by
      rw [← hwf.has_iff]
      simp [Cache.has, hg]
    have hfind := find?_none_of_not_mem_keys c.order k hnot
    simp [Cache.Peek, hg, modelLookup, hfind]
  | some el =>
    obtain ⟨hmem, kv, hkv, hk⟩ := hwf.binds k el hg
    have hin : kv ∈ c.order := (WF.mem_order_iff kv).mpr ⟨el, hmem, hkv⟩
    have hfind := find?_of_mem_nodup_keys c.order hwf.order_keys_nodup kv hin
    rw [hk] at hfind
    simp [Cache.Peek, hg, hkv, modelLookup, hfind]

theorem Delete_fst [DecidableEq K] (c : Cache K V) (k : K) : (c.Delete k).1 = c.has k := by
  unfold Cache.Delete Cache.has
  cases mapGet c.items k <;> rfl

theorem Delete_spec [DecidableEq K] {c : Cache K V} (hwf : WF c) (k : K) :
    WF (c.Delete k).2 ∧ (c.Delete k).2.capacity = c.capacity ∧
      (c.Delete k).2.order = c.order.filter (fun x => !decide (x.key = k)) := by
  cases hg : mapGet c.items k with
  | none =>
    have hnot : k ∉ c.order.map entry.key := by
      rw [← hwf.has_iff]
      simp [Cache.has, hg]
    have hself : c.order.filter (fun x => !decide (x.key = k)) = c.order := by
      rw [List.filter_eq_self]
      intro x hx
      simp only [Bool.not_eq_true', decide_eq_false_iff_not]
      exact fun hk => hnot (hk ▸ List.mem_map_of_mem entry.key hx)
    have hD : c.Delete k = (false, c) := by simp [Cache.Delete, hg]
    rw [hD, hself]
    exact ⟨hwf, rfl, rfl⟩
  | some el =>
    obtain ⟨hmem, kv, hkv, hk⟩ := hwf.binds k el hg
    have hlinked := evict_linked hwf.toLinked el hmem kv hkv
    rw [hk] at hlinked
    have hD : c.Delete k
        = (true, { c with ll := Remove c.ll el, items := mapDelete c.items k }) := by
      simp [Cache.Delete, hg]
    rw [hD]
    refine ⟨⟨hlinked, hwf.capPos, ?_⟩, rfl, ?_⟩
    · have h1 := hwf.lenLe
      have h2 : (c.ll.erase el).length = c.ll.length - 1 := List.length_erase_of_mem hmem
      simp only [Remove, h2]
      omega
    · show (c.ll.erase el).filterMap (assertEntry c.mem) = _
      apply filterMap_erase_eq_filter _ k el c.ll hwf.nodup
      intro x hx
      obtain ⟨kx, hkx, hmx⟩ := hwf.elems x hx
      refine ⟨kx, hkx, ?_, ?_⟩
      · intro hkk
        rw [hkk, hg] at hmx
        exact (Option.some.inj hmx).symm
      · intro hxe
        rw [hxe, hkv] at hkx
        cases hkx
        exact hk

theorem stepAll_spec [DecidableEq K] [Inhabited V] {c : Cache K V} (hwf : WF c)
    (call : Call K V) :
    ∃ c1, c.stepAll call = some c1 ∧ WF c1 ∧ c1.capacity = c.capacity ∧
      c1.order = modelStepAll c.capacity c.order call := by
  cases call with
  | base op => exact step_spec hwf op
  | Peek k => exact ⟨c, by simp [Cache.stepAll, Peek_spec hwf k], hwf, rfl, rfl⟩
  | Delete k =>
    obtain ⟨h1, h2, h3⟩ := Delete_spec hwf k
    exact ⟨(c.Delete k).2, rfl, h1, h2, h3⟩

theorem runAll_spec [DecidableEq K] [Inhabited V] {c : Cache K V} (hwf : WF c)
    (calls : List (Call K V)) :
    ∃ c1, c.runAll calls = some c1 ∧ WF c1 ∧ c1.capacity = c.capacity ∧
      c1.order = modelRunAll c.capacity c.order calls := by
  induction calls generalizing c with
  | nil => exact ⟨c, rfl, hwf, rfl, rfl⟩
  | cons call calls ih =>
    obtain ⟨c1, h1, h2, h3, h4⟩ := stepAll_spec hwf call
    obtain ⟨c2, g1, g2, g3, g4⟩ := ih h2
    refine ⟨c2, ?_, g2, g3.trans h3, ?_⟩
    · simp [Cache.runAll, h1, g1]
    · rw [g4, h3, h4]
      rfl

theorem runAllNew_spec [DecidableEq K] [Inhabited V] {capacity : Int} (hcap : 0 < capacity)
    (calls : List (Call K V)) :
    ∃ c, runAllNew K V capacity calls = some c ∧ WF c ∧ c.capacity = capacity ∧
      c.order = modelRunAll capacity [] calls := by
  have hnew : NewCache K V capacity
      = some { mem := [], ll := [], items := [], capacity := capacity } := by
    unfold NewCache
    rw [if_neg (by omega)]
  obtain ⟨hwf, h2, h3⟩ := WF_NewCache hnew
  obtain ⟨c1, g1, g2, g3, g4⟩ := runAll_spec hwf calls
  refine ⟨c1, ?_, g2, g3, ?_⟩
  · simp [runAllNew, hnew, g1]
  · rw [g4, h3]

theorem ReachableAll.wfAll [DecidableEq K] [Inhabited V] {c : Cache K V} (h : ReachableAll c) :
    WF c := by
  obtain ⟨capacity, calls, hrun⟩ := h
  have hpos : 0 < capacity := by
    by_contra hle
    unfold runAllNew NewCache at hrun
    rw [if_pos (by omega)] at hrun
    cases hrun
  obtain ⟨c1, h1, h2, _, _⟩ := runAllNew_spec (K := K) (V := V) hpos calls
  rw [hrun] at h1
  cases h1
  exact h2

theorem runAll_base [DecidableEq K] [Inhabited V] (c : Cache K V) (ops : List (Op K V)) :
    c.runAll (ops.map Call.base) = c.run ops := by
  induction ops generalizing c with
  | nil => rfl
  | cons op ops ih =>
    simp only [List.map_cons, Cache.runAll, Cache.run, Cache.stepAll]
    cases c.step op with
    | none => rfl
    | some c1 => exact ih c1

theorem Reachable.all [DecidableEq K] [Inhabited V] {c : Cache K V} (h : Reachable c) :
    ReachableAll c := by
  obtain ⟨capacity, ops, hrun⟩ := h
  refine ⟨capacity, ops.map Call.base, ?_⟩
  unfold runAllNew
  unfold runNew at hrun
  cases hn : NewCache K V capacity with
  | none => rw [hn] at hrun; cases hrun
  | some c0 =>
    rw [hn] at hrun
    simpa [runAll_base] using hrun

theorem sampleFull_reachableAll : ReachableAll sampleFull :=
  sampleFull_reachable.all

theorem dedup_snoc [DecidableEq K] (l : List K) (k : K) :
    (l ++ [k]).dedup = l.dedup.filter (fun x => !decide (x = k)) ++ [k] := by
  induction l with
  | nil => simp
  | cons a t ih =>
    by_cases hat : a ∈ t
    · rw [List.cons_append, List.dedup_cons_of_mem (List.mem_append_left _ hat),
        List.dedup_cons_of_mem hat, ih]
    · by_cases hak : a = k
      · subst hak
        rw [List.cons_append, List.dedup_cons_of_mem (by simp), List.dedup_cons_of_not_mem hat,
          List.filter_cons_of_neg (by simp), ih]
      · rw [List.cons_append, List.dedup_cons_of_not_mem (by simp [hat, hak]),
          List.dedup_cons_of_not_mem hat, List.filter_cons_of_pos (by simpa using hak), ih,
          List.cons_append]

theorem recentFirst_snoc [DecidableEq K] (l : List K) (k : K) :
    recentFirst (l ++ [k]) = k :: (recentFirst l).filter (fun x => !decide (x = k)) := by
  simp [recentFirst, dedup_snoc]

theorem recentFirst_nodup [DecidableEq K] (l : List K) : (recentFirst l).Nodup :=
  List.nodup_reverse.mpr (List.nodup_dedup l)

theorem mem_recentFirst [DecidableEq K] (l : List K) (k : K) : k ∈ recentFirst l ↔ k ∈ l := by
  simp [recentFirst]

theorem take_filter_of_mem [DecidableEq K] (r : List K) (hr : r.Nodup) (k : K) (n : Nat)
    (hk : k ∈ r.take (n + 1)) :
    (r.filter (fun x => !decide (x = k))).take n
      = (r.take (n + 1)).filter (fun x => !decide (x = k)) := by
  induction r generalizing n with
  | nil => simp at hk
  | cons a t ih =>
    rw [List.nodup_cons] at hr
    rw [List.take_succ_cons]
    by_cases hak : a = k
    · subst hak
      have hself : ∀ l : List K, a ∉ l → l.filter (fun x => !decide (x = a)) = l := by
        intro l hl
        rw [List.filter_eq_self]
        intro x hx
        simp only [Bool.not_eq_true', decide_eq_false_iff_not]
        exact fun h => hl (h ▸ hx)
      rw [List.filter_cons_of_neg (by simp), List.filter_cons_of_neg (by simp),
        hself t hr.1, hself (t.take n) (fun h => hr.1 (List.mem_of_mem_take h))]
    · rw [List.take_succ_cons] at hk
      have hkt : k ∈ t.take n := by
        rcases List.mem_cons.mp hk with h | h
        · exact absurd h.symm hak
        · exact h
      cases n with
      | zero => simp at hkt
      | succ m =>
        rw [List.filter_cons_of_pos (by simpa using hak),
          List.filter_cons_of_pos (by simpa using hak), List.take_succ_cons, ih hr.2 m hkt]

theorem take_filter_of_not_mem [DecidableEq K] (r : List K) (k : K) (n m : Nat) (hmn : m ≤ n)
    (hk : k ∉ r.take n) :
    (r.filter (fun x => !decide (x = k))).take m = r.take m := by
  induction r generalizing n m with
  | nil => simp
  | cons a t ih =>
    cases m with
    | zero => simp
    | succ m2 =>
      cases n with
      | zero => omega
      | succ n2 =>
        rw [List.take_succ_cons, List.mem_cons, not_or] at hk
        have hak : ¬ a = k := fun h => hk.1 h.symm
        rw [List.filter_cons_of_pos (by simpa using hak), List.take_succ_cons,
          List.take_succ_cons, ih n2 m2 (by omega) hk.2]

theorem map_key_filter [DecidableEq K] (l : List (entry K V)) (k : K) :
    (l.filter (fun x => !decide (x.key = k))).map entry.key
      = (l.map entry.key).filter (fun x => !decide (x = k)) := by
  rw [List.filter_map]
  rfl

theorem modelSet_keys_take [DecidableEq K] (n : Nat) (l : List (entry K V)) (r : List K)
    (hr : r.Nodup) (hl : l.map entry.key = r.take (n + 1)) (k : K) (v : V) :
    (modelSet ((n : Int) + 1) l k v).map entry.key
      = (k :: r.filter (fun x => !decide (x = k))).take (n + 1) := by
  have hlen : l.length = min (n + 1) r.length := by
    have := congrArg List.length hl
    simpa using this
  rw [List.take_succ_cons]
  unfold modelSet
  by_cases hk : k ∈ l.map entry.key
  · rw [if_pos hk, List.map_cons, map_key_filter, hl]
    rw [hl] at hk
    rw [take_filter_of_mem r hr k n hk]
  · rw [if_neg hk]
    rw [hl] at hk
    rw [take_filter_of_not_mem r k (n + 1) n (by omega) hk]
    by_cases hfull : (l.length : Int) + 1 > (n : Int) + 1
    · rw [if_pos hfull, List.map_cons, List.map_dropLast, hl]
      have hlt : n < r.length := by omega
      rw [List.dropLast_eq_take, List.take_take, List.length_take]
      congr 2
      omega
    · rw [if_neg hfull, List.map_cons, hl]
      have hle : r.length ≤ n := by omega
      rw [List.take_of_length_le (by omega : r.length ≤ n + 1), List.take_of_length_le hle]

theorem setAll_snoc (sets : List (K × V)) (p : K × V) :
    setAll (sets ++ [p]) = setAll sets ++ [Op.Set p.1 p.2] := by
  simp [setAll]

theorem model_setAll_keys [DecidableEq K] (n : Nat) (sets : List (K × V)) :
    (modelRun ((n : Int) + 1) [] (setAll sets)).map entry.key
      = (recentFirst (sets.map Prod.fst)).take (n + 1) := by
  induction sets using List.reverseRecOn with
  | nil => rfl
  | append_singleton sets p ih =>
    rw [setAll_snoc, modelRun_snoc, List.map_append, List.map_cons, List.map_nil,
      recentFirst_snoc]
    exact modelSet_keys_take n _ _ (recentFirst_nodup _) ih p.1 p.2

theorem lastAccess_snoc_set_eq [DecidableEq K] (ops : List (Op K V)) (k : K) (v : V) :
    lastAccess (ops ++ [Op.Set k v]) k = ops.length + 1 := by
  rw [lastAccess_snoc]
  simp [Op.touches]

theorem lastAccess_snoc_set_ne [DecidableEq K] (ops : List (Op K V)) (k k2 : K) (v : V)
    (h : k ≠ k2) : lastAccess (ops ++ [Op.Set k v]) k2 = lastAccess ops k2 := by
  rw [lastAccess_snoc]
  simp [Op.touches, h]

theorem model_sets_older [DecidableEq K] (cap : Int) (sets : List (K × V)) :
    ∀ k2 ∈ sets.map Prod.fst, k2 ∉ (modelRun cap [] (setAll sets)).map entry.key →
      ∀ e ∈ modelRun cap [] (setAll sets),
        lastAccess (setAll sets) k2 < lastAccess (setAll sets) e.key := by
  induction sets using List.reverseRecOn with
  | nil => intro k2 hk2; simp at hk2
  | append_singleton sets p ih =>
    intro k2 hk2 hnot e he
    rw [setAll_snoc] at hnot he ⊢
    rw [modelRun_snoc] at hnot he
    have hrec := model_recency (K := K) (V := V) cap (setAll sets)
    generalize modelRun cap [] (setAll sets) = l at ih hnot he hrec
    obtain ⟨rest, hshape, _⟩ := modelSet_shape cap l p.1 p.2
    have hne : p.1 ≠ k2 := by
      intro h
      apply hnot
      simp only [modelStep]
      rw [hshape, ← h]
      simp
    have hk2old : k2 ∈ sets.map Prod.fst := by
      rw [List.map_append, List.mem_append] at hk2
      rcases hk2 with h | h
      · exact h
      · simp at h
        exact absurd h.symm hne
    rw [lastAccess_snoc_set_ne _ _ _ _ hne]
    have hhead : lastAccess (setAll sets) k2
        < lastAccess (setAll sets ++ [Op.Set p.1 p.2]) p.1 := by
      rw [lastAccess_snoc_set_eq]
      have := lastAccess_le (setAll sets) k2
      omega
    have hold : ∀ x ∈ l, x.key ≠ p.1 → k2 ∉ l.map entry.key →
        lastAccess (setAll sets) k2
          < lastAccess (setAll sets ++ [Op.Set p.1 p.2]) x.key := by
      intro x hx hxk hk2l
      rw [lastAccess_snoc_set_ne _ _ _ _ (Ne.symm hxk)]
      exact ih k2 hk2old hk2l x hx
    simp only [modelStep, modelSet] at hnot he
    split_ifs at hnot he with h1 h2
    · -- the key is present: its entry moves to the front
      rcases List.mem_cons.mp he with h | h
      · rw [h]
        exact hhead
      · have hx := List.mem_filter.mp h
        have hxk : e.key ≠ p.1 := by simpa using hx.2
        apply hold e hx.1 hxk
        intro hin
        apply hnot
        obtain ⟨y, hy, hyk⟩ := List.mem_map.mp hin
        refine List.mem_map.mpr ⟨y, List.mem_cons_of_mem _ (List.mem_filter.mpr ⟨hy, ?_⟩), hyk⟩
        simp only [Bool.not_eq_true', decide_eq_false_iff_not]
        exact fun hh => hne (hh.symm.trans hyk)
    · -- the key is new and the cache is full: the back entry is evicted
      rcases List.mem_cons.mp he with h | h
      · rw [h]
        exact hhead
      · have hxk : e.key ≠ p.1 :=
          fun hh => h1 (hh ▸ List.mem_map_of_mem entry.key (List.mem_of_mem_dropLast h))
        by_cases hin : k2 ∈ l.map entry.key
        · have hlne : l ≠ [] := by
            intro hnil
            rw [hnil] at hin
            simp at hin
          obtain ⟨back, _, hsplit⟩ := getLast?_split l hlne
          obtain ⟨y, hy, hyk⟩ := List.mem_map.mp hin
          rw [hsplit] at hy hrec
          rw [lastAccess_snoc_set_ne _ _ _ _ (Ne.symm hxk)]
          rcases List.mem_append.mp hy with hyi | hyb
          · exact absurd (List.mem_map.mpr ⟨y, List.mem_cons_of_mem _ hyi, hyk⟩) hnot
          · rw [List.mem_singleton] at hyb
            have := (List.pairwise_append.mp hrec).2.2 e h back (by simp)
            rw [← hyk, hyb]
            exact this
        · exact hold e (List.mem_of_mem_dropLast h) hxk hin
    · -- the key is new and there is room
      rcases List.mem_cons.mp he with h | h
      · rw [h]
        exact hhead
      · have hxk : e.key ≠ p.1 := fun hh => h1 (hh ▸ List.mem_map_of_mem entry.key h)
        apply hold e h hxk
        intro hin
        apply hnot
        rw [List.map_cons]
        exact List.mem_cons_of_mem _ hin

theorem dedup_length_mono [DecidableEq K] {l1 l2 : List K} (h : l1 ⊆ l2) :
    l1.dedup.length ≤ l2.dedup.length := by
  apply List.Subperm.length_le
  apply (List.nodup_dedup l1).subperm
  intro x hx
  exact List.mem_dedup.mpr (h (List.mem_dedup.mp hx))

theorem setKeys_snoc (ops : List (Op K V)) (op : Op K V) :
    setKeys (ops ++ [op]) =
      match op with
      | .Set k _ => setKeys ops ++ [k]
      | _ => setKeys ops := by
  unfold setKeys
  rw [List.filterMap_append]
  cases op <;> simp

theorem model_within_capacity [DecidableEq K] [Inhabited V] (cap : Int) (hcap : 0 < cap)
    (ops : List (Op K V)) (hops : ∀ op ∈ ops, op.isSetOrGet = true)
    (hd : ((setKeys ops).dedup.length : Int) ≤ cap) :
    ∀ k, k ∈ (modelRun cap [] ops).map entry.key ↔ k ∈ setKeys ops := by
  induction ops using List.reverseRecOn with
  | nil => intro k; simp [modelRun, setKeys]
  | append_singleton ops op ih =>
    have hops1 : ∀ o ∈ ops, o.isSetOrGet = true :=
      fun o ho => hops o (List.mem_append_left _ ho)
    have hop := hops op (by simp)
    have hsub : setKeys ops ⊆ setKeys (ops ++ [op]) := by
      rw [setKeys_snoc]
      cases op <;> simp
    have hd1 : ((setKeys ops).dedup.length : Int) ≤ cap := by
      have := dedup_length_mono hsub
      omega
    have ih1 := ih hops1 hd1
    have hnd := model_keys_nodup (K := K) (V := V) hcap ops
    rw [modelRun_snoc]
    rw [setKeys_snoc] at hd ⊢
    generalize modelRun cap [] ops = l at ih1 hnd
    intro x
    cases op with
    | Set k v =>
      simp only at hd ⊢
      by_cases hk : k ∈ l.map entry.key
      · rw [modelStep, modelSet_keys_of_mem cap l k v hk x, ih1 x, List.mem_append,
          List.mem_singleton]
        constructor
        · exact Or.inl
        · rintro (h | h)
          · exact h
          · rw [h]
            exact (ih1 k).mp hk
      · have hknot : k ∉ setKeys ops := fun h => hk ((ih1 k).mpr h)
        have hlen : l.length = (setKeys ops).dedup.length :=
          length_eq_of_same_keys l _ hnd (List.nodup_dedup _)
            (fun y => (ih1 y).trans List.mem_dedup.symm)
        have hgrow : (setKeys ops ++ [k]).dedup.length = (setKeys ops).dedup.length + 1 := by
          rw [dedup_snoc, List.length_append, List.length_singleton, List.filter_eq_self.mpr]
          intro y hy
          simp only [Bool.not_eq_true', decide_eq_false_iff_not]
          exact fun h => hknot (h ▸ List.mem_dedup.mp hy)
        rw [hgrow] at hd
        push_cast at hd
        simp only [modelStep, modelSet, if_neg hk]
        rw [if_neg (by omega), List.map_cons, List.mem_cons, List.mem_append,
          List.mem_singleton, ih1 x]
        exact or_comm
    | Get k => exact (modelGet_keys l k x).trans (ih1 x)
    | Clear => simp [Op.isSetOrGet] at hop
    | Len => simp [Op.isSetOrGet] at hop
    | Cap => simp [Op.isSetOrGet] at hop

/-! ## The contract of the cache -/

/-- C1: for every capacity `C > 0` and every sequence of calls applied to
`NewCache(C)`, after any number `n` of these calls (none of which panics)
`Cap()` is `C` and `0 <= Len() <= C`. -/
theorem len_within_cap_after_every_call [DecidableEq K] [Inhabited V] (C : Int) (hC : 0 < C)
    (ops : List (Op K V)) (n : Nat) :
    ∃ c, runNew K V C (ops.take n) = some c ∧ c.Cap = C ∧ 0 ≤ c.Len ∧ c.Len ≤ C := by
  obtain ⟨c, h1, h2, h3, _⟩ := runNew_spec (K := K) (V := V) hC (ops.take n)
  refine ⟨c, h1, h3, ?_, ?_⟩
  · exact Int.natCast_nonneg _
  · have := h2.lenLe
    rw [h3] at this
    exact this

theorem len_within_cap_after_every_call_witness :
    (0 : Int) < 2 ∧
    ∃ c, runNew Nat Nat 2 ([Op.Set 1 10, .Set 2 20, .Get 1, .Set 3 30, .Len, .Clear].take 4)
        = some c ∧ c.Cap = 2 ∧ 0 ≤ c.Len ∧ c.Len ≤ 2 :=
  ⟨by decide, len_within_cap_after_every_call 2 (by decide) _ 4⟩

/-- C2: for every capacity `C >= 1`, starting from `NewCache(C)`, after `Set` of
`C` pairwise distinct keys followed by any sequence of `Get` calls (of any key)
and of `Set` calls on those `C` keys, a `Set` of a further key `k` makes exactly
one of the `C` keys absent, the one whose most recent access (`Set` or `Get`) is
the earliest; the other `C - 1` keys and `k` are found by `Get` with their
last-set values. -/
theorem eviction_removes_least_recently_accessed [DecidableEq K] [Inhabited V] (C : Int)
    (hC : 1 ≤ C) (kvs : List (K × V)) (hnd : (kvs.map Prod.fst).Nodup)
    (hlen : (kvs.length : Int) = C) (ops2 : List (Op K V))
    (hops : ∀ op ∈ ops2, op.onKeys (kvs.map Prod.fst) = true) (k : K) (v : V)
    (hk : k ∉ kvs.map Prod.fst) :
    ∃ c evicted, runNew K V C (setAll kvs ++ ops2 ++ [Op.Set k v]) = some c ∧
      evicted ∈ kvs.map Prod.fst ∧
      (∃ c1, c.Get evicted = some ((default, false), c1)) ∧
      (∀ k2 ∈ kvs.map Prod.fst, k2 ≠ evicted →
        lastAccess (setAll kvs ++ ops2) evicted < lastAccess (setAll kvs ++ ops2) k2) ∧
      (∀ k2 ∈ kvs.map Prod.fst, k2 ≠ evicted → ∃ v2 c1,
        lastSet (setAll kvs ++ ops2 ++ [Op.Set k v]) k2 = some v2 ∧
        c.Get k2 = some ((v2, true), c1)) ∧
      (∃ c1, c.Get k = some ((v, true), c1)) := by
  have hpos : 0 < C := by omega
  obtain ⟨c, h1, hwf, _, h4⟩ :=
    runNew_spec (K := K) (V := V) hpos (setAll kvs ++ ops2 ++ [Op.Set k v])
  have hvals : ∀ e ∈ c.order,
      lastSet (setAll kvs ++ ops2 ++ [Op.Set k v]) e.key = some e.value := by
    rw [h4]
    exact model_lastSet C _
  -- the recency order before the last call
  have hkeys : ∀ x, x ∈ (modelRun C [] (setAll kvs ++ ops2)).map entry.key ↔
      x ∈ kvs.map Prod.fst := by
    rw [modelRun_append]
    apply model_onKeys C _ ops2 hops
    intro x
    rw [model_setAll C kvs hnd (by omega), List.mem_reverse]
  have hnodup := model_keys_nodup (K := K) (V := V) hpos (setAll kvs ++ ops2)
  have hrec := model_recency (K := K) (V := V) C (setAll kvs ++ ops2)
  rw [modelRun_snoc] at h4
  generalize modelRun C [] (setAll kvs ++ ops2) = l at hkeys hnodup hrec h4
  have hll : (l.length : Int) = C := by
    rw [length_eq_of_same_keys l _ hnodup hnd hkeys]
    simpa using hlen
  have hne : l ≠ [] := by
    intro h
    rw [h] at hll
    simp at hll
    omega
  have hknot : k ∉ l.map entry.key := fun h => hk ((hkeys k).mp h)
  -- the recency order after the last call
  simp only [modelStep, modelSet, if_neg hknot] at h4
  rw [if_pos (by omega)] at h4
  obtain ⟨init, back, hsplit⟩ : ∃ init back, l = init ++ [back] := by
    rcases List.eq_nil_or_concat l with h | ⟨init, back, h⟩
    · exact absurd h hne
    · exact ⟨init, back, by simpa using h⟩
  subst hsplit
  rw [List.dropLast_concat] at h4
  rw [List.map_append, List.nodup_append] at hnodup
  have hbackmem : back.key ∈ (init ++ [back]).map entry.key := by simp
  have hbacknot : back.key ∉ c.order.map entry.key := by
    rw [h4]
    simp only [List.map_cons, List.mem_cons, not_or]
    exact ⟨fun h => hknot (h ▸ hbackmem), fun h => hnodup.2.2 h (by simp)⟩
  have hother : ∀ k2 ∈ kvs.map Prod.fst, k2 ≠ back.key → ∃ x ∈ init, x.key = k2 := by
    intro k2 hk2 hne2
    obtain ⟨x, hx, hxk⟩ := List.mem_map.mp ((hkeys k2).mpr hk2)
    rcases List.mem_append.mp hx with h | h
    · exact ⟨x, h, hxk⟩
    · rw [List.mem_singleton] at h
      exact absurd (h ▸ hxk).symm hne2
  refine ⟨c, back.key, h1, (hkeys _).mp hbackmem, ?_, ?_, ?_, ?_⟩
  · exact Get_of_not_mem hwf _ hbacknot
  · intro k2 hk2 hne2
    obtain ⟨x, hx, hxk⟩ := hother k2 hk2 hne2
    have := (List.pairwise_append.mp hrec).2.2 x hx back (by simp)
    rw [hxk] at this
    exact this
  · intro k2 hk2 hne2
    obtain ⟨x, hx, hxk⟩ := hother k2 hk2 hne2
    have hxin : x ∈ c.order := by
      rw [h4]
      exact List.mem_cons_of_mem _ hx
    obtain ⟨c1, hc1⟩ := Get_of_mem_order hwf x hxin
    rw [hxk] at hc1
    exact ⟨x.value, c1, hxk ▸ hvals x hxin, hc1⟩
  · have hin : (⟨k, v⟩ : entry K V) ∈ c.order := by
      rw [h4]
      exact List.mem_cons_self _ _
    exact Get_of_mem_order hwf ⟨k, v⟩ hin

theorem eviction_removes_least_recently_accessed_witness :
    (1 : Int) ≤ 3 ∧ (([(1, 10), (2, 20), (3, 30)] : List (Nat × Nat)).map Prod.fst).Nodup ∧
    ((([(1, 10), (2, 20), (3, 30)] : List (Nat × Nat)).length : Int) = 3) ∧
    (∀ op ∈ [Op.Get 1, Op.Set 3 31, Op.Get 9],
      op.onKeys (([(1, 10), (2, 20), (3, 30)] : List (Nat × Nat)).map Prod.fst) = true) ∧
    4 ∉ ([(1, 10), (2, 20), (3, 30)] : List (Nat × Nat)).map Prod.fst ∧
    ∃ c evicted,
      runNew Nat Nat 3
        (setAll [(1, 10), (2, 20), (3, 30)] ++ [Op.Get 1, Op.Set 3 31, Op.Get 9]
          ++ [Op.Set 4 40]) = some c ∧
      evicted ∈ ([(1, 10), (2, 20), (3, 30)] : List (Nat × Nat)).map Prod.fst ∧
      (∃ c1, c.Get evicted = some ((default, false), c1)) ∧
      (∀ k2 ∈ ([(1, 10), (2, 20), (3, 30)] : List (Nat × Nat)).map Prod.fst, k2 ≠ evicted →
        lastAccess (setAll [(1, 10), (2, 20), (3, 30)] ++ [Op.Get 1, Op.Set 3 31, Op.Get 9])
            evicted
          < lastAccess (setAll [(1, 10), (2, 20), (3, 30)] ++ [Op.Get 1, Op.Set 3 31, Op.Get 9])
            k2) ∧
      (∀ k2 ∈ ([(1, 10), (2, 20), (3, 30)] : List (Nat × Nat)).map Prod.fst, k2 ≠ evicted →
        ∃ v2 c1,
          lastSet (setAll [(1, 10), (2, 20), (3, 30)] ++ [Op.Get 1, Op.Set 3 31, Op.Get 9]
            ++ [Op.Set 4 40]) k2 = some v2 ∧
          c.Get k2 = some ((v2, true), c1)) ∧
      (∃ c1, c.Get 4 = some ((40, true), c1)) :=
  ⟨by decide, by decide, by decide, by decide, by decide,
    eviction_removes_least_recently_accessed 3 (by decide) [(1, 10), (2, 20), (3, 30)]
      (by decide) (by decide) [Op.Get 1, Op.Set 3 31, Op.Get 9] (by decide) 4 40 (by decide)⟩

/-- C3: after any sequence of calls applied to `NewCache(C)`, `C > 0`, a
following `Get(k)` returns, and if it reports `found = true` then the value it
returns is the value passed to the most recent `Set(k, _)` of the sequence. -/
theorem get_returns_last_set_value [DecidableEq K] [Inhabited V] (C : Int) (hC : 0 < C)
    (ops : List (Op K V)) (k : K) :
    ∃ c r c1, runNew K V C ops = some c ∧ c.Get k = some (r, c1) ∧
      (r.2 = true → lastSet ops k = some r.1) := by
  obtain ⟨c, h1, h2, _, h4⟩ := runNew_spec (K := K) (V := V) hC ops
  obtain ⟨c1, g1, _⟩ := Get_spec h2 k
  refine ⟨c, modelLookup c.order k, c1, h1, g1, ?_⟩
  intro hfound
  unfold modelLookup at hfound ⊢
  split at hfound
  · next e he =>
    have hmem : e ∈ modelRun C [] ops := h4 ▸ List.mem_of_find?_eq_some he
    have hkey : e.key = k := by simpa using List.find?_some he
    rw [← hkey]
    simp only [he]
    exact model_lastSet C ops e hmem
  · simp at hfound

theorem get_returns_last_set_value_witness :
    (0 : Int) < 2 ∧
    ∃ c r c1, runNew Nat Nat 2 [Op.Set 1 10, .Set 2 20, .Clear, .Set 1 11, .Get 2] = some c ∧
      c.Get 1 = some (r, c1) ∧
      (r.2 = true → lastSet [Op.Set 1 10, .Set 2 20, .Clear, .Set 1 11, .Get 2] 1 = some r.1) :=
  ⟨by decide, get_returns_last_set_value 2 (by decide) _ 1⟩

/-- C4: in a reachable cache in which `k` is present, `Set(k, v)` leaves `Len()`
and the set of present keys unchanged, whether or not the cache is full, and the
new recency order is the old one with the entry of `k` replaced by `(k, v)` and
moved to the front, the other entries keeping their values and relative order. -/
theorem set_present_updates_in_place [DecidableEq K] [Inhabited V] (c : Cache K V)
    (hr : Reachable c) (k : K) (v : V) (hk : c.has k = true) :
    ∃ c1, c.Set k v = some c1 ∧ c1.Len = c.Len ∧ (∀ k2, c1.has k2 = c.has k2) ∧
      ∃ pre old post, c.order = pre ++ ⟨k, old⟩ :: post ∧ (∀ e ∈ pre ++ post, e.key ≠ k) ∧
        c1.order = ⟨k, v⟩ :: (pre ++ post) := by
  have hwf := hr.wf
  obtain ⟨el, hel⟩ := Option.isSome_iff_exists.mp hk
  obtain ⟨c1, h1, h2, _, h4, h5⟩ := Set_hit_spec hwf k v el hel
  obtain ⟨hmem, kv, hkv, hkey⟩ := hwf.binds k el hel
  have hin : kv ∈ c.order := (WF.mem_order_iff kv).mpr ⟨el, hmem, hkv⟩
  obtain ⟨pre, post, s1, s2, s3⟩ := split_at_key c.order hwf.order_keys_nodup kv hin
  obtain ⟨kk, old⟩ := kv
  simp only at hkey s2 s3
  subst hkey
  rw [s2] at h5
  refine ⟨c1, h1, ?_, ?_, pre, old, post, s1, s3, h5⟩
  · rw [h2.len_eq, hwf.len_eq, h5, s1]
    simp only [List.length_cons, List.length_append]
    omega
  · intro k2
    unfold Cache.has
    rw [h4]

theorem set_present_updates_in_place_witness :
    Reachable sampleFull ∧ sampleFull.has 1 = true ∧
    ∃ c1, sampleFull.Set 1 11 = some c1 ∧ c1.Len = sampleFull.Len ∧
      (∀ k2, c1.has k2 = sampleFull.has k2) ∧
      ∃ pre old post, sampleFull.order = pre ++ ⟨1, old⟩ :: post ∧
        (∀ e ∈ pre ++ post, e.key ≠ 1) ∧ c1.order = ⟨1, 11⟩ :: (pre ++ post) :=
  ⟨sampleFull_reachable, by decide,
    set_present_updates_in_place sampleFull sampleFull_reachable 1 11 (by decide)⟩

/-- C5: in a reachable cache with `Len() == Cap()` in which `k` is not present,
`Set(k, v)` removes exactly the entry at the back of the recency order, from
the list and from the map: the new order is `(k, v)` followed by the old order
without its last entry, `Len()` is still `Cap()`, the key of the removed entry is
no longer bound, `k` is bound, and every other key is bound as before. -/
theorem set_absent_full_evicts_back [DecidableEq K] [Inhabited V] (c : Cache K V)
    (hr : Reachable c) (k : K) (v : V) (hk : c.has k = false) (hfull : c.Len = c.Cap) :
    ∃ c1 back, c.Set k v = some c1 ∧ c.order.getLast? = some back ∧
      c1.order = ⟨k, v⟩ :: c.order.dropLast ∧ c1.Len = c1.Cap ∧ c1.Cap = c.Cap ∧
      c1.has back.key = false ∧ c1.has k = true ∧
      (∀ k2, k2 ≠ back.key → k2 ≠ k → c1.has k2 = c.has k2) := by
  have hwf := hr.wf
  have hnone : mapGet c.items k = none := by
    unfold Cache.has at hk
    cases hm : mapGet c.items k with
    | none => rfl
    | some el => rw [hm] at hk; cases hk
  have hnot : k ∉ c.order.map entry.key := (has_false_iff hwf k).mp hk
  obtain ⟨c1, h1, h2, h3, h4⟩ := Set_miss_spec hwf k v hnone
  have hlen : (c.order.length : Int) = c.capacity := by
    rw [← hwf.len_eq]
    exact hfull
  rw [if_pos (by omega)] at h4
  have hne : c.order ≠ [] := by
    intro h
    have := hwf.capPos
    rw [h] at hlen
    simp at hlen
    omega
  obtain ⟨back, hb1, hb2⟩ := getLast?_split c.order hne
  have hnd := hwf.order_keys_nodup
  rw [hb2, List.map_append, List.nodup_append] at hnd
  have hbk : back.key ∉ c.order.dropLast.map entry.key := by
    intro h
    exact hnd.2.2 h (by simp)
  have hbne : back.key ≠ k := by
    intro h
    apply hnot
    rw [hb2, ← h]
    simp
  refine ⟨c1, back, h1, hb1, h4, ?_, h3, ?_, ?_, ?_⟩
  · rw [h2.len_eq, h4]
    show _ = c1.capacity
    rw [h3, ← hlen]
    have : 0 < c.order.length := List.length_pos.mpr hne
    simp only [List.length_cons, List.length_dropLast]
    omega
  · rw [has_false_iff h2, h4]
    simp only [List.map_cons, List.mem_cons, not_or]
    exact ⟨hbne, hbk⟩
  · rw [h2.has_iff, h4]
    simp
  · intro k2 hk2 hk3
    apply has_eq_of_keys hwf h2
    rw [h4]
    conv_rhs => rw [hb2]
    simp only [List.map_cons, List.mem_cons, List.map_append, List.mem_append, List.map_nil,
      List.not_mem_nil, or_false]
    constructor
    · rintro (h | h)
      · exact absurd h hk3
      · exact Or.inl h
    · rintro (h | h)
      · exact Or.inr h
      · exact absurd h hk2

theorem set_absent_full_evicts_back_witness :
    Reachable sampleFull ∧ sampleFull.has 3 = false ∧ sampleFull.Len = sampleFull.Cap ∧
    ∃ c1 back, sampleFull.Set 3 30 = some c1 ∧ sampleFull.order.getLast? = some back ∧
      c1.order = ⟨3, 30⟩ :: sampleFull.order.dropLast ∧ c1.Len = c1.Cap ∧
      c1.Cap = sampleFull.Cap ∧ c1.has back.key = false ∧ c1.has 3 = true ∧
      (∀ k2, k2 ≠ back.key → k2 ≠ 3 → c1.has k2 = sampleFull.has k2) :=
  ⟨sampleFull_reachable, by decide, by decide,
    set_absent_full_evicts_back sampleFull sampleFull_reachable 3 30 (by decide) (by decide)⟩

/-- C6: in a reachable cache with `Len() < Cap()` in which `k` is not present,
`Set(k, v)` evicts nothing: the new recency order is `(k, v)` followed by the
whole old order, `Len()` grows by exactly 1, `k` is bound and every other key is
bound as before. -/
theorem set_absent_not_full_pushes_front [DecidableEq K] [Inhabited V] (c : Cache K V)
    (hr : Reachable c) (k : K) (v : V) (hk : c.has k = false) (hroom : c.Len < c.Cap) :
    ∃ c1, c.Set k v = some c1 ∧ c1.order = ⟨k, v⟩ :: c.order ∧ c1.Len = c.Len + 1 ∧
      c1.has k = true ∧ (∀ k2, k2 ≠ k → c1.has k2 = c.has k2) := by
  have hwf := hr.wf
  have hnone : mapGet c.items k = none := by
    unfold Cache.has at hk
    cases hm : mapGet c.items k with
    | none => rfl
    | some el => rw [hm] at hk; cases hk
  obtain ⟨c1, h1, h2, _, h4⟩ := Set_miss_spec hwf k v hnone
  have hlen : (c.order.length : Int) < c.capacity := by
    rw [← hwf.len_eq]
    exact hroom
  rw [if_neg (by omega)] at h4
  refine ⟨c1, h1, h4, ?_, ?_, ?_⟩
  · rw [h2.len_eq, hwf.len_eq, h4]
    simp
  · rw [h2.has_iff, h4]
    simp
  · intro k2 hk2
    apply has_eq_of_keys hwf h2
    rw [h4]
    simp [hk2]

theorem set_absent_not_full_pushes_front_witness :
    Reachable sampleRoomy ∧ sampleRoomy.has 3 = false ∧ sampleRoomy.Len < sampleRoomy.Cap ∧
    ∃ c1, sampleRoomy.Set 3 30 = some c1 ∧ c1.order = ⟨3, 30⟩ :: sampleRoomy.order ∧
      c1.Len = sampleRoomy.Len + 1 ∧ c1.has 3 = true ∧
      (∀ k2, k2 ≠ 3 → c1.has k2 = sampleRoomy.has k2) :=
  ⟨sampleRoomy_reachable, by decide, by decide,
    set_absent_not_full_pushes_front sampleRoomy sampleRoomy_reachable 3 30 (by decide)
      (by decide)⟩

/-- C7: in a reachable cache whose recency order holds the entry `(k, v)`,
`Get(k)` returns `(v, true)`, and the new recency order is the old one with that
entry moved to the front; `Len()`, the set of present keys, every stored value
and the relative order of the other entries are unchanged. -/
theorem get_present_moves_to_front [DecidableEq K] [Inhabited V] (c : Cache K V)
    (hr : Reachable c) (k : K) (v : V) (hv : (⟨k, v⟩ : entry K V) ∈ c.order) :
    c.has k = true ∧
    ∃ c1 pre post, c.Get k = some ((v, true), c1) ∧ c.order = pre ++ ⟨k, v⟩ :: post ∧
      (∀ e ∈ pre ++ post, e.key ≠ k) ∧ c1.order = ⟨k, v⟩ :: (pre ++ post) ∧
      c1.Len = c.Len ∧ c1.Cap = c.Cap ∧ (∀ k2, c1.has k2 = c.has k2) := by
  have hwf := hr.wf
  have hnd := hwf.order_keys_nodup
  obtain ⟨c1, h1, h2, h3, h4⟩ := Get_spec hwf k
  have hfind := find?_of_mem_nodup_keys c.order hnd ⟨k, v⟩ hv
  simp only at hfind
  obtain ⟨pre, post, s1, s2, s3⟩ := split_at_key c.order hnd ⟨k, v⟩ hv
  simp only at s2 s3
  simp only [modelLookup, hfind] at h1
  simp only [modelGet, hfind, s2] at h4
  refine ⟨?_, c1, pre, post, h1, s1, s3, h4, ?_, h3, ?_⟩
  · rw [hwf.has_iff]
    exact List.mem_map_of_mem entry.key hv
  · rw [h2.len_eq, hwf.len_eq, h4, s1]
    simp only [List.length_cons, List.length_append]
    omega
  · intro k2
    apply has_eq_of_keys hwf h2
    rw [h4, s1]
    simp only [List.map_cons, List.mem_cons, List.map_append, List.mem_append]
    tauto

theorem get_present_moves_to_front_witness :
    Reachable sampleFull ∧ (⟨1, 10⟩ : entry Nat Nat) ∈ sampleFull.order ∧
    (sampleFull.has 1 = true ∧
    ∃ c1 pre post, sampleFull.Get 1 = some ((10, true), c1) ∧
      sampleFull.order = pre ++ ⟨1, 10⟩ :: post ∧
      (∀ e ∈ pre ++ post, e.key ≠ 1) ∧ c1.order = ⟨1, 10⟩ :: (pre ++ post) ∧
      c1.Len = sampleFull.Len ∧ c1.Cap = sampleFull.Cap ∧
      (∀ k2, c1.has k2 = sampleFull.has k2)) :=
  ⟨sampleFull_reachable, by decide,
    get_present_moves_to_front sampleFull sampleFull_reachable 1 10 (by decide)⟩

/-- C8: in every cache (reachable or not) in which `k` is not present, `Get(k)`
returns the zero value of `V` and `false` and leaves the cache, that is the
recency list, the map and the capacity, exactly as it was. -/
theorem get_absent_changes_nothing [DecidableEq K] [Inhabited V] (c : Cache K V) (k : K)
    (hk : c.has k = false) : c.Get k = some ((default, false), c) := by
  unfold Cache.has at hk
  unfold Cache.Get
  cases hm : mapGet c.items k with
  | none => rfl
  | some el => rw [hm] at hk; cases hk

theorem get_absent_changes_nothing_witness :
    sampleFull.has 7 = false ∧ sampleFull.Get 7 = some ((default, false), sampleFull) :=
  ⟨by decide, get_absent_changes_nothing sampleFull 7 (by decide)⟩

/-- C9: for every integer capacity, `NewCache(capacity)` panics if and only if
`capacity <= 0`; for `capacity > 0` it returns a cache with `Len() == 0`,
`Cap() == capacity` and `Get(k)` reporting `found = false` for every key `k`. -/
theorem newCache_panics_iff_nonpositive [DecidableEq K] [Inhabited V] (capacity : Int) :
    (NewCache K V capacity = none ↔ capacity ≤ 0) ∧
    (0 < capacity → ∃ c, NewCache K V capacity = some c ∧ c.Len = 0 ∧ c.Cap = capacity ∧
      ∀ k : K, c.Get k = some ((default, false), c)) := by
  unfold NewCache
  constructor
  · by_cases h : capacity ≤ 0
    · simp [h]
    · simp [h]
  · intro h
    rw [if_neg (by omega)]
    exact ⟨_, rfl, rfl, rfl, fun k => rfl⟩

theorem newCache_panics_iff_nonpositive_witness :
    (0 : Int) < 3 ∧ ∃ c, NewCache Nat Nat 3 = some c ∧ c.Len = 0 ∧ c.Cap = 3 ∧
      ∀ k : Nat, c.Get k = some ((default, false), c) :=
  ⟨by decide, (newCache_panics_iff_nonpositive 3).2 (by decide)⟩

/-- C10: for every cache (reachable or not), after `Clear()` the value of
`Len()` is 0, `Get(k)` reports `found = false` for every key `k`, and `Cap()` is
what it was before the call. -/
theorem clear_empties_and_keeps_cap [DecidableEq K] [Inhabited V] (c : Cache K V) :
    c.Clear.Len = 0 ∧ (∀ k : K, c.Clear.Get k = some ((default, false), c.Clear)) ∧
      c.Clear.Cap = c.Cap :=
  ⟨rfl, fun _ => rfl, rfl⟩

/-- C11: in every cache reachable from a successful `NewCache` by `Set`, `Get`
and `Clear` calls, the keys of the map are exactly the keys of the entries of
the list, no key is bound twice in the map or held by two list elements, every
list element holds an entry, the map size equals the list length equals
`Len()`, and every binding of the map points to an element of the list whose
entry has the bound key. -/
theorem map_and_list_in_sync [DecidableEq K] [Inhabited V] (c : Cache K V)
    (hr : Reachable c) :
    (∀ k, k ∈ c.keys ↔ k ∈ c.order.map entry.key) ∧
    c.keys.Nodup ∧ (c.order.map entry.key).Nodup ∧ c.order.length = c.ll.length ∧
    c.items.length = c.ll.length ∧ (c.ll.length : Int) = c.Len ∧
    (∀ k el, mapGet c.items k = some el →
      el ∈ c.ll ∧ ∃ kv, assertEntry c.mem el = some kv ∧ kv.key = k) := by
  have hwf := hr.wf
  refine ⟨?_, hwf.keysNodup, hwf.order_keys_nodup, hwf.order_length, keys_length_eq hwf, rfl,
    hwf.binds⟩
  intro k
  rw [← hwf.has_iff]
  exact (mapGet_isSome_iff c.items k).symm

theorem map_and_list_in_sync_witness :
    Reachable sampleFull ∧
    ((∀ k, k ∈ sampleFull.keys ↔ k ∈ sampleFull.order.map entry.key) ∧
    sampleFull.keys.Nodup ∧ (sampleFull.order.map entry.key).Nodup ∧
    sampleFull.order.length = sampleFull.ll.length ∧
    sampleFull.items.length = sampleFull.ll.length ∧
    (sampleFull.ll.length : Int) = sampleFull.Len ∧
    (∀ k el, mapGet sampleFull.items k = some el →
      el ∈ sampleFull.ll ∧ ∃ kv, assertEntry sampleFull.mem el = some kv ∧ kv.key = k)) :=
  ⟨sampleFull_reachable, map_and_list_in_sync sampleFull sampleFull_reachable⟩

/-- C12: in every cache reachable by calls of the whole interface, `Peek(k)`
returns the pair that `Get(k)` returns in that state and leaves the cache as it
was, the recency order included; so with capacity 2 and distinct keys `a`, `b`,
`d`, after `Set(a, va)`, `Set(b, vb)`, `Peek(a)`, `Set(d, vd)` the key `a` is the
one evicted, and `b` and `d` are found with their values. -/
theorem peek_reads_without_promoting [DecidableEq K] [Inhabited V] (c : Cache K V)
    (hr : ReachableAll c) (k : K) (a b d : K) (va vb vd : V)
    (hab : a ≠ b) (had : a ≠ d) (hbd : b ≠ d) :
    (∃ r c1, c.Peek k = some (r, c) ∧ c.Get k = some (r, c1)) ∧
    (∃ s s1 s2 s3,
      runAllNew K V 2 [.base (.Set a va), .base (.Set b vb), .Peek a, .base (.Set d vd)]
        = some s ∧
      s.Get a = some ((default, false), s1) ∧ s.Get b = some ((vb, true), s2) ∧
      s.Get d = some ((vd, true), s3)) := by
  constructor
  · have hwf := hr.wfAll
    obtain ⟨c1, h1, _⟩ := Get_spec hwf k
    exact ⟨_, c1, Peek_spec hwf k, h1⟩
  · obtain ⟨s, h1, hwf, _, h4⟩ := runAllNew_spec (K := K) (V := V) (by decide : (0 : Int) < 2)
      [.base (.Set a va), .base (.Set b vb), .Peek a, .base (.Set d vd)]
    have hord : s.order = [⟨d, vd⟩, ⟨b, vb⟩] := by
      rw [h4]
      simp [modelRunAll, modelStepAll, modelStep, modelSet, hab, had, hbd, Ne.symm hab,
        Ne.symm had, Ne.symm hbd]
    obtain ⟨s1, g1⟩ := Get_of_not_mem hwf a (by
      rw [hord]
      simp [had, hab])
    obtain ⟨s2, g2⟩ := Get_of_mem_order hwf ⟨b, vb⟩ (by rw [hord]; simp)
    obtain ⟨s3, g3⟩ := Get_of_mem_order hwf ⟨d, vd⟩ (by rw [hord]; simp)
    exact ⟨s, s1, s2, s3, h1, g1, g2, g3⟩

theorem peek_reads_without_promoting_witness :
    ReachableAll sampleFull ∧ (1 : Nat) ≠ 2 ∧ (1 : Nat) ≠ 3 ∧ (2 : Nat) ≠ 3 ∧
    ((∃ r c1, sampleFull.Peek 1 = some (r, sampleFull) ∧ sampleFull.Get 1 = some (r, c1)) ∧
    (∃ s s1 s2 s3,
      runAllNew Nat Nat 2 [.base (.Set 1 1), .base (.Set 2 2), .Peek 1, .base (.Set 3 3)]
        = some s ∧
      s.Get 1 = some ((default, false), s1) ∧ s.Get 2 = some ((2, true), s2) ∧
      s.Get 3 = some ((3, true), s3))) :=
  ⟨sampleFull_reachableAll, by decide, by decide, by decide,
    peek_reads_without_promoting sampleFull sampleFull_reachableAll 1 1 2 3 1 2 3
      (by decide) (by decide) (by decide)⟩

/-- C13: in every cache reachable by calls of the whole interface, `Delete(k)`
returns true if and only if `k` is present; after a `Delete(k)` that returned
true, `Get(k)` reports `found = false`, `Len()` is smaller by exactly 1 and a
second `Delete(k)` returns false; a `Delete(k)` of an absent key returns false
and leaves the cache as it was. -/
theorem delete_removes_present_key [DecidableEq K] [Inhabited V] (c : Cache K V)
    (hr : ReachableAll c) (k : K) :
    ((c.Delete k).1 = true ↔ c.has k = true) ∧
    ((c.Delete k).1 = true →
      (∃ c2, (c.Delete k).2.Get k = some ((default, false), c2)) ∧
      (c.Delete k).2.Len = c.Len - 1 ∧ ((c.Delete k).2.Delete k).1 = false) ∧
    (c.has k = false → c.Delete k = (false, c)) := by
  have hwf := hr.wfAll
  obtain ⟨w1, _, o1⟩ := Delete_spec hwf k
  have hnot : k ∉ (c.Delete k).2.order.map entry.key := by
    rw [o1]
    simp [List.mem_filter]
  refine ⟨by rw [Delete_fst], ?_, ?_⟩
  · intro htrue
    rw [Delete_fst] at htrue
    refine ⟨Get_of_not_mem w1 k hnot, ?_, ?_⟩
    · obtain ⟨e, he, hek⟩ := List.mem_map.mp ((hwf.has_iff k).mp htrue)
      obtain ⟨pre, post, s1, s2, _⟩ := split_at_key c.order hwf.order_keys_nodup e he
      rw [hek] at s2
      rw [w1.len_eq, hwf.len_eq, o1, s2, s1]
      simp only [List.length_append, List.length_cons]
      push_cast
      omega
    · rw [Delete_fst]
      exact (has_false_iff w1 k).mpr hnot
  · intro hfalse
    unfold Cache.has at hfalse
    unfold Cache.Delete
    cases hm : mapGet c.items k with
    | none => rfl
    | some el => rw [hm] at hfalse; cases hfalse

theorem delete_removes_present_key_witness :
    ReachableAll sampleFull ∧ (sampleFull.Delete 1).1 = true ∧
    (((sampleFull.Delete 1).1 = true ↔ sampleFull.has 1 = true) ∧
    ((sampleFull.Delete 1).1 = true →
      (∃ c2, (sampleFull.Delete 1).2.Get 1 = some ((default, false), c2)) ∧
      (sampleFull.Delete 1).2.Len = sampleFull.Len - 1 ∧
      ((sampleFull.Delete 1).2.Delete 1).1 = false) ∧
    (sampleFull.has 1 = false → sampleFull.Delete 1 = (false, sampleFull))) :=
  ⟨sampleFull_reachableAll, by decide,
    delete_removes_present_key sampleFull sampleFull_reachableAll 1⟩

/-- C15: in every cache reachable from a successful `NewCache` by `Set`, `Get`
and `Clear` calls, a further `Set`, `Get`, `Clear`, `Len` or `Cap` call does not
panic: the type assertion on the element that the map gives for a key succeeds,
and when `Set` of an absent key finds the list longer than the capacity,
`Back()` is not nil and the type assertion on it succeeds. -/
theorem calls_never_panic [DecidableEq K] [Inhabited V] (c : Cache K V) (hr : Reachable c) :
    (∀ op : Op K V, ∃ c1, c.step op = some c1) ∧
    (∀ k v, ∃ c1, c.Set k v = some c1) ∧
    (∀ k, ∃ r c1, c.Get k = some (r, c1)) ∧
    (∀ k el, mapGet c.items k = some el → ∃ kv, assertEntry c.mem el = some kv) ∧
    (∀ k v, mapGet c.items k = none →
      ((PushFront c.mem c.ll ⟨k, v⟩).2.1.length : Int) > c.capacity →
      ∃ last kv, Back (PushFront c.mem c.ll ⟨k, v⟩).2.1 = some last ∧
        assertEntry (PushFront c.mem c.ll ⟨k, v⟩).1 last = some kv) := by
  have hwf := hr.wf
  refine ⟨?_, ?_, ?_, ?_, ?_⟩
  · intro op
    obtain ⟨c1, h1, _⟩ := step_spec hwf op
    exact ⟨c1, h1⟩
  · intro k v
    obtain ⟨c1, h1, _⟩ := Set_spec hwf k v
    exact ⟨c1, h1⟩
  · intro k
    obtain ⟨c1, h1, _⟩ := Get_spec hwf k
    exact ⟨_, c1, h1⟩
  · intro k el h
    obtain ⟨_, kv, hkv, _⟩ := hwf.binds k el h
    exact ⟨kv, hkv⟩
  · intro k v hnone hlong
    obtain ⟨hlinked, _⟩ := pushed_sound hwf k v hnone
    have hne : (pushed c k v).ll ≠ [] := List.cons_ne_nil _ _
    obtain ⟨last, hlast, _⟩ := getLast?_split (pushed c k v).ll hne
    obtain ⟨kv, hkv, _⟩ := hlinked.elems last (List.mem_of_getLast?_eq_some hlast)
    exact ⟨last, kv, hlast, hkv⟩

theorem calls_never_panic_witness :
    Reachable sampleFull ∧
    ((∀ op : Op Nat Nat, ∃ c1, sampleFull.step op = some c1) ∧
    (∀ k v, ∃ c1, sampleFull.Set k v = some c1) ∧
    (∀ k, ∃ r c1, sampleFull.Get k = some (r, c1)) ∧
    (∀ k el, mapGet sampleFull.items k = some el →
      ∃ kv, assertEntry sampleFull.mem el = some kv) ∧
    (∀ k v, mapGet sampleFull.items k = none →
      ((PushFront sampleFull.mem sampleFull.ll ⟨k, v⟩).2.1.length : Int) > sampleFull.capacity →
      ∃ last kv, Back (PushFront sampleFull.mem sampleFull.ll ⟨k, v⟩).2.1 = some last ∧
        assertEntry (PushFront sampleFull.mem sampleFull.ll ⟨k, v⟩).1 last = some kv)) :=
  ⟨sampleFull_reachable, calls_never_panic sampleFull sampleFull_reachable⟩

/-- C16: in every reachable cache, of any capacity and full or not, `Get(k)`
right after `Set(k, v)` returns `(v, true)`: the eviction that `Set` may trigger
never removes the entry it has just inserted. -/
theorem get_after_set_hits [DecidableEq K] [Inhabited V] (c : Cache K V) (hr : Reachable c)
    (k : K) (v : V) :
    ∃ c1 c2, c.Set k v = some c1 ∧ c1.Get k = some ((v, true), c2) := by
  obtain ⟨c1, h1, h2, _, h4⟩ := Set_spec hr.wf k v
  obtain ⟨rest, h5, _⟩ := modelSet_shape c.capacity c.order k v
  have hin : (⟨k, v⟩ : entry K V) ∈ c1.order := by
    rw [h4, h5]
    exact List.mem_cons_self _ _
  obtain ⟨c2, h6⟩ := Get_of_mem_order h2 ⟨k, v⟩ hin
  exact ⟨c1, c2, h1, h6⟩

theorem get_after_set_hits_witness :
    Reachable sampleOne ∧ sampleOne.Len = sampleOne.Cap ∧
    ∃ c1 c2, sampleOne.Set 2 20 = some c1 ∧ c1.Get 2 = some ((20, true), c2) :=
  ⟨sampleOne_reachable, by decide, get_after_set_hits sampleOne sampleOne_reachable 2 20⟩

/-- C17: for every capacity `C >= 1` and every sequence of `Set` calls applied
to `NewCache(C)`, with `d` distinct keys: afterwards `Len()` is `min(C, d)`; the
keys present are, in recency order, the first `C` of the distinct keys listed by
most recent `Set` first, each found by `Get` with its last-set value; every
other key is reported not found, and every other key used was last set earlier
than every key present. -/
theorem sets_keep_most_recent_keys [DecidableEq K] [Inhabited V] (C : Int) (hC : 1 ≤ C)
    (sets : List (K × V)) :
    ∃ c, runNew K V C (setAll sets) = some c ∧
      c.Len = min C ((sets.map Prod.fst).dedup.length : Int) ∧
      c.order.map entry.key = (recentFirst (sets.map Prod.fst)).take C.toNat ∧
      (∀ k ∈ (recentFirst (sets.map Prod.fst)).take C.toNat, ∃ v c1,
        lastSet (setAll sets) k = some v ∧ c.Get k = some ((v, true), c1)) ∧
      (∀ k, k ∉ (recentFirst (sets.map Prod.fst)).take C.toNat →
        ∃ c1, c.Get k = some ((default, false), c1)) ∧
      (∀ k ∈ (recentFirst (sets.map Prod.fst)).take C.toNat, ∀ k2 ∈ sets.map Prod.fst,
        k2 ∉ (recentFirst (sets.map Prod.fst)).take C.toNat →
        lastAccess (setAll sets) k2 < lastAccess (setAll sets) k) := by
  obtain ⟨n, hn⟩ : ∃ n : Nat, C = (n : Int) + 1 := ⟨(C - 1).toNat, by omega⟩
  subst hn
  have htoNat : ((n : Int) + 1).toNat = n + 1 := by omega
  rw [htoNat]
  obtain ⟨c, h1, hwf, _, h4⟩ := runNew_spec (K := K) (V := V) (by omega : (0 : Int) < n + 1)
    (setAll sets)
  have hkeys : c.order.map entry.key = (recentFirst (sets.map Prod.fst)).take (n + 1) := by
    rw [h4]
    exact model_setAll_keys n sets
  have hvals := model_lastSet (K := K) (V := V) ((n : Int) + 1) (setAll sets)
  have hold := model_sets_older (K := K) (V := V) ((n : Int) + 1) sets
  rw [← h4] at hvals hold
  rw [← hkeys]
  refine ⟨c, h1, ?_, rfl, ?_, ?_, ?_⟩
  · have hlen := congrArg List.length hkeys
    rw [List.length_map, List.length_take] at hlen
    rw [hwf.len_eq, hlen]
    simp only [recentFirst, List.length_reverse]
    push_cast
    rfl
  · intro k hk
    obtain ⟨e, he, hek⟩ := List.mem_map.mp hk
    obtain ⟨c1, hc1⟩ := Get_of_mem_order hwf e he
    rw [hek] at hc1
    exact ⟨e.value, c1, hek ▸ hvals e he, hc1⟩
  · intro k hk
    exact Get_of_not_mem hwf k hk
  · intro k hk k2 hk2 hnot
    obtain ⟨e, he, hek⟩ := List.mem_map.mp hk
    rw [← hek]
    exact hold k2 hk2 hnot e he

theorem sets_keep_most_recent_keys_witness :
    (1 : Int) ≤ 2 ∧
    ∃ c, runNew Nat Nat 2 (setAll [(1, 10), (2, 20), (1, 11), (3, 30)]) = some c ∧
      c.Len = min 2
        ((([(1, 10), (2, 20), (1, 11), (3, 30)] : List (Nat × Nat)).map Prod.fst).dedup.length
          : Int) ∧
      c.order.map entry.key
        = (recentFirst (([(1, 10), (2, 20), (1, 11), (3, 30)] : List (Nat × Nat)).map
            Prod.fst)).take (2 : Int).toNat ∧
      (∀ k ∈ (recentFirst (([(1, 10), (2, 20), (1, 11), (3, 30)] : List (Nat × Nat)).map
            Prod.fst)).take (2 : Int).toNat, ∃ v c1,
        lastSet (setAll [(1, 10), (2, 20), (1, 11), (3, 30)]) k = some v ∧
        c.Get k = some ((v, true), c1)) ∧
      (∀ k, k ∉ (recentFirst (([(1, 10), (2, 20), (1, 11), (3, 30)] : List (Nat × Nat)).map
            Prod.fst)).take (2 : Int).toNat →
        ∃ c1, c.Get k = some ((default, false), c1)) ∧
      (∀ k ∈ (recentFirst (([(1, 10), (2, 20), (1, 11), (3, 30)] : List (Nat × Nat)).map
            Prod.fst)).take (2 : Int).toNat,
        ∀ k2 ∈ ([(1, 10), (2, 20), (1, 11), (3, 30)] : List (Nat × Nat)).map Prod.fst,
        k2 ∉ (recentFirst (([(1, 10), (2, 20), (1, 11), (3, 30)] : List (Nat × Nat)).map
            Prod.fst)).take (2 : Int).toNat →
        lastAccess (setAll [(1, 10), (2, 20), (1, 11), (3, 30)]) k2
          < lastAccess (setAll [(1, 10), (2, 20), (1, 11), (3, 30)]) k) :=
  ⟨by decide, sets_keep_most_recent_keys 2 (by decide) [(1, 10), (2, 20), (1, 11), (3, 30)]⟩

/-- C18: for every capacity `C >= 1` and every sequence of `Set` and `Get` calls
applied to `NewCache(C)` in which at most `C` distinct keys are passed to `Set`,
after any number `n` of these calls nothing has been evicted: `Len()` is the
number of distinct keys set so far, and `Get(k)` returns its last-set value and
`true` for every key `k` set so far. -/
theorem no_eviction_within_capacity [DecidableEq K] [Inhabited V] (C : Int) (hC : 1 ≤ C)
    (ops : List (Op K V)) (hops : ∀ op ∈ ops, op.isSetOrGet = true)
    (hd : ((setKeys ops).dedup.length : Int) ≤ C) (n : Nat) :
    ∃ c, runNew K V C (ops.take n) = some c ∧
      c.Len = ((setKeys (ops.take n)).dedup.length : Int) ∧
      ∀ k ∈ setKeys (ops.take n), ∃ v c1,
        lastSet (ops.take n) k = some v ∧ c.Get k = some ((v, true), c1) := by
  have hpos : 0 < C := by omega
  obtain ⟨c, h1, hwf, _, h4⟩ := runNew_spec (K := K) (V := V) hpos (ops.take n)
  have hsub : setKeys (ops.take n) ⊆ setKeys ops :=
    (List.Sublist.filterMap _ (List.take_sublist n ops)).subset
  have hkeys := model_within_capacity C hpos (ops.take n)
    (fun op hop => hops op (List.mem_of_mem_take hop))
    (by have := dedup_length_mono hsub; omega)
  have hvals := model_lastSet (K := K) (V := V) C (ops.take n)
  rw [← h4] at hkeys hvals
  refine ⟨c, h1, ?_, ?_⟩
  · rw [hwf.len_eq, length_eq_of_same_keys c.order _ hwf.order_keys_nodup (List.nodup_dedup _)
      (fun y => (hkeys y).trans List.mem_dedup.symm)]
  · intro k hk
    obtain ⟨e, he, hek⟩ := List.mem_map.mp ((hkeys k).mpr hk)
    obtain ⟨c1, hc1⟩ := Get_of_mem_order hwf e he
    rw [hek] at hc1
    exact ⟨e.value, c1, hek ▸ hvals e he, hc1⟩

theorem no_eviction_within_capacity_witness :
    (1 : Int) ≤ 2 ∧
    (∀ op ∈ [Op.Set 1 10, Op.Get 1, Op.Set 2 20, Op.Set 1 11, Op.Get 5],
      op.isSetOrGet = true) ∧
    (((setKeys [Op.Set 1 10, Op.Get 1, Op.Set 2 20, Op.Set 1 11, Op.Get 5]).dedup.length : Int)
      ≤ 2) ∧
    ∃ c, runNew Nat Nat 2
        ([Op.Set 1 10, Op.Get 1, Op.Set 2 20, Op.Set 1 11, Op.Get 5].take 5) = some c ∧
      c.Len = ((setKeys
        ([Op.Set 1 10, Op.Get 1, Op.Set 2 20, Op.Set 1 11, Op.Get 5].take 5)).dedup.length
          : Int) ∧
      ∀ k ∈ setKeys ([Op.Set 1 10, Op.Get 1, Op.Set 2 20, Op.Set 1 11, Op.Get 5].take 5),
        ∃ v c1,
          lastSet ([Op.Set 1 10, Op.Get 1, Op.Set 2 20, Op.Set 1 11, Op.Get 5].take 5) k
            = some v ∧
          c.Get k = some ((v, true), c1) :=
  ⟨by decide, by decide, by decide,
    no_eviction_within_capacity 2 (by decide)
      [Op.Set 1 10, Op.Get 1, Op.Set 2 20, Op.Set 1 11, Op.Get 5] (by decide) (by decide) 5⟩

/-- C19: in every reachable cache, whether or not `k` is present and whether or
not the cache is full, `Set(k, u)` followed by `Set(k, v)` leaves the same
recency order (keys and values), the same present keys, the same `Len()` and
the same `Cap()` as `Set(k, v)` alone. -/
theorem last_set_absorbs_previous [DecidableEq K] [Inhabited V] (c : Cache K V)
    (hr : Reachable c) (k : K) (u v : V) :
    ∃ c1 c2 c3, c.Set k u = some c1 ∧ c1.Set k v = some c2 ∧ c.Set k v = some c3 ∧
      c2.order = c3.order ∧ (∀ k2, c2.has k2 = c3.has k2) ∧ c2.Len = c3.Len ∧
      c2.Cap = c3.Cap := by
  obtain ⟨c1, h1, w1, e1, o1⟩ := Set_spec hr.wf k u
  obtain ⟨c2, h2, w2, e2, o2⟩ := Set_spec w1 k v
  obtain ⟨c3, h3, w3, e3, o3⟩ := Set_spec hr.wf k v
  have hord : c2.order = c3.order := by
    rw [o2, o1, e1, o3]
    exact modelSet_absorb c.capacity c.order k u v
  refine ⟨c1, c2, c3, h1, h2, h3, hord, ?_, ?_, ?_⟩
  · intro k2
    exact has_eq_of_keys w3 w2 k2 (by rw [hord])
  · rw [w2.len_eq, w3.len_eq, hord]
  · show c2.capacity = c3.capacity
    rw [e2, e1, e3]

theorem last_set_absorbs_previous_witness :
    Reachable sampleFull ∧
    ∃ c1 c2 c3, sampleFull.Set 3 30 = some c1 ∧ c1.Set 3 31 = some c2 ∧
      sampleFull.Set 3 31 = some c3 ∧
      c2.order = c3.order ∧ (∀ k2, c2.has k2 = c3.has k2) ∧ c2.Len = c3.Len ∧
      c2.Cap = c3.Cap :=
  ⟨sampleFull_reachable, last_set_absorbs_previous sampleFull sampleFull_reachable 3 30 31⟩

/-- C20: for every reachable cache, the cache after `Clear()` is observationally
equal to `NewCache(C)` for its capacity `C`: `NewCache(C)` succeeds, and every
sequence of calls runs without panic and returns the same results on the
cleared cache as on the new one. -/
theorem clear_equals_new [DecidableEq K] [Inhabited V] (c : Cache K V) (hr : Reachable c) :
    ∃ c0, NewCache K V c.Cap = some c0 ∧
      ∀ ops : List (Op K V), ∃ rs, c.Clear.results ops = some rs ∧ c0.results ops = some rs := by
  have hwf := hr.wf
  have hnew : NewCache K V c.Cap
      = some { mem := [], ll := [], items := [], capacity := c.capacity } := by
    unfold NewCache Cache.Cap
    rw [if_neg (by have := hwf.capPos; omega)]
  obtain ⟨w0, e0, o0⟩ := WF_NewCache hnew
  obtain ⟨w1, e1, o1⟩ := WF_Clear hwf
  refine ⟨_, hnew, fun ops => ⟨modelResults c.capacity [] ops, ?_, ?_⟩⟩
  · rw [results_spec w1 ops, e1, o1]
  · rw [results_spec w0 ops, o0]

theorem clear_equals_new_witness :
    Reachable sampleFull ∧
    ∃ c0, NewCache Nat Nat sampleFull.Cap = some c0 ∧
      ∀ ops : List (Op Nat Nat),
        ∃ rs, sampleFull.Clear.results ops = some rs ∧ c0.results ops = some rs :=
  ⟨sampleFull_reachable, clear_equals_new sampleFull sampleFull_reachable⟩

/-! ## The scenarios of the package tests, evaluated on the embedding

Keys `"a"`, `"b"`, `"c"`, `"d"` are written 1, 2, 3, 4; the zero value of `int` is 0. -/

theorem test_Evict_RarelyUsed_Items :
    getAfter 3 [.Set 1 1, .Set 2 2, .Set 3 3, .Get 1, .Get 3, .Set 4 4] 2 = some (0, false) ∧
    getAfter 3 [.Set 1 1, .Set 2 2, .Set 3 3, .Get 1, .Get 3, .Set 4 4] 1 = some (1, true) ∧
    getAfter 3 [.Set 1 1, .Set 2 2, .Set 3 3, .Get 1, .Get 3, .Set 4 4] 3 = some (3, true) ∧
    getAfter 3 [.Set 1 1, .Set 2 2, .Set 3 3, .Get 1, .Get 3, .Set 4 4] 4 = some (4, true) := by
  decide

theorem test_update_existing_moves_to_front :
    getAfter 3 [.Set 1 1, .Set 2 2, .Set 3 3, .Set 1 10, .Set 4 4] 1 = some (10, true) ∧
    getAfter 3 [.Set 1 1, .Set 2 2, .Set 3 3, .Set 1 10, .Set 4 4] 2 = some (0, false) ∧
    getAfter 3 [.Set 1 1, .Set 2 2, .Set 3 3, .Set 1 10, .Set 4 4, .Get 1, .Get 2] 3
      = some (3, true) ∧
    getAfter 3 [.Set 1 1, .Set 2 2, .Set 3 3, .Set 1 10, .Set 4 4, .Get 1, .Get 2, .Get 3] 4
      = some (4, true) := by
  decide

theorem test_Evict_On_Capacity_Exceeded_cap_2 :
    getAfter 2 [.Set 1 1, .Set 2 2, .Set 3 3] 2 = some (2, true) ∧
    getAfter 2 [.Set 1 1, .Set 2 2, .Set 3 3, .Get 2] 3 = some (3, true) ∧
    getAfter 2 [.Set 1 1, .Set 2 2, .Set 3 3, .Get 2, .Get 3] 1 = some (0, false) ∧
    (runNew Nat Nat 2 [.Set 1 1, .Set 2 2, .Set 3 3, .Get 2, .Get 3, .Get 1]).map Cache.Len
      = some 2 := by
  decide

theorem test_Clear_EmptiesCache :
    (runNew Nat Nat 3 [.Set 1 1, .Set 2 2]).map Cache.Len = some 2 ∧
    (runNew Nat Nat 3 [.Set 1 1, .Set 2 2, .Clear]).map Cache.Len = some 0 ∧
    getAfter 3 [.Set 1 1, .Set 2 2, .Clear] 1 = some (0, false) ∧
    getAfter 3 [.Set 1 1, .Set 2 2, .Clear, .Get 1] 2 = some (0, false) := by
  decide

theorem test_NewCache_PanicOnNonPositiveCapacity :
    NewCache Nat Nat 0 = none ∧ NewCache Nat Nat (-1) = none ∧ NewCache Nat Nat (-10) = none := by
  decide

theorem test_recentFirst :
    (recentFirst [1, 2, 1, 3]).take 2 = [3, 1] ∧
    (runNew Nat Nat 2 (setAll [(1, 10), (2, 20), (1, 11), (3, 30)])).map
      (fun c => c.order.map entry.key) = some [3, 1] := by
  decide

theorem test_peek_does_not_affect_eviction :
    (runAllNew Nat Nat 2 [.base (.Set 1 1), .base (.Set 2 2)]).bind
      (fun c => (c.Peek 1).map Prod.fst) = some (1, true) ∧
    (runAllNew Nat Nat 2 [.base (.Set 1 1), .base (.Set 2 2), .Peek 1, .base (.Set 3 3)]).bind
      (fun c => (c.Get 1).map Prod.fst) = some (0, false) ∧
    (runAllNew Nat Nat 2 [.base (.Set 1 1), .base (.Set 2 2), .Peek 1, .base (.Set 3 3),
      .base (.Get 1)]).bind (fun c => (c.Get 2).map Prod.fst) = some (2, true) ∧
    (runAllNew Nat Nat 2 [.base (.Set 1 1), .base (.Set 2 2), .Peek 1, .base (.Set 3 3),
      .base (.Get 1), .base (.Get 2)]).bind (fun c => (c.Get 3).map Prod.fst)
      = some (3, true) := by
  decide

theorem test_delete_unknown_is_false :
    (runAllNew Nat Nat 1 []).map (fun c => (c.Delete 9).1) = some false ∧
    (runAllNew Nat Nat 1 [.Delete 9, .base (.Set 1 7)]).map (fun c => (c.Delete 1).1)
      = some true ∧
    (runAllNew Nat Nat 1 [.Delete 9, .base (.Set 1 7), .Delete 1]).map
      (fun c => (c.Delete 1).1) = some false := by
  decide

theorem test_basic_get_set_peek_delete :
    (runAllNew Nat Nat 2 [.base (.Get 9), .base (.Set 1 1)]).bind
      (fun c => (c.Peek 1).map Prod.fst) = some (1, true) ∧
    (runAllNew Nat Nat 2 [.base (.Get 9), .base (.Set 1 1), .Peek 1, .base (.Set 2 2)]).bind
      (fun c => (c.Get 1).map Prod.fst) = some (1, true) ∧
    (runAllNew Nat Nat 2 [.base (.Get 9), .base (.Set 1 1), .Peek 1, .base (.Set 2 2),
      .base (.Get 1)]).map (fun c => (c.Delete 1).1) = some true ∧
    (runAllNew Nat Nat 2 [.base (.Get 9), .base (.Set 1 1), .Peek 1, .base (.Set 2 2),
      .base (.Get 1), .Delete 1]).bind (fun c => (c.Get 1).map Prod.fst)
      = some (0, false) := by
  decide

end lru
